import Mathlib

/-!
Shallow embedding of `tools/unicode_case_conversion.py` (jerryscript):
the table-compression core that turns Unicode case mappings into tiered
lookup tables.

Modelling conventions:

* A Python codepoint is modelled as `Int` (so that `letter_id - 1` can go
  negative exactly as in the source).
* A case-mapping value (a Python string of codepoints) is a `List Int`.
* A `CaseMap` (Python `dict`) is an association list whose keys are kept
  strictly ascending.  The source only ever reads a dict through
  `sorted(d.keys())`, `d[k]`, `k in d` and `del d[k]`, so a dict is fully
  described by this canonical representation; `sorted_keys` below is the
  model of `sorted(d.keys())` and deletion preserves the representation.
  Insertion-order questions are handled separately via `buildMap`.
* Python runtime errors that the source can actually raise (KeyError,
  IndexError, TypeError from `ord`, UnboundLocalError for `in_range` in
  `extract_special_ranges`) are modelled with `Except String`.
-/

abbrev CaseMap : Type := List (Int × List Int)

/-- Lookup in a `CaseMap` (first matching key), models `d[k]`/`k in d`. -/
def mapGet? : CaseMap → Int → Option (List Int)
  | [], _ => none
  | (k', v) :: rest, k => if k' = k then some v else mapGet? rest k

/-- Membership test, models Python `k in d`. -/
def mapHas (m : CaseMap) (k : Int) : Bool := (mapGet? m k).isSome

/-- Models Python `d[k]`: raises `KeyError` when the key is absent. -/
def pyGet (m : CaseMap) (k : Int) : Except String (List Int) :=
  match mapGet? m k with
  | some v => .ok v
  | none => .error "KeyError"

/-- Models Python `ord(s)` on a string of codepoints: the sole codepoint of a
length-1 string, a `TypeError` otherwise (in particular on the empty string). -/
def pyOrd : List Int → Except String Int
  | [c] => .ok c
  | _ => .error "TypeError"

/-- Models Python `s[i]` indexing: `IndexError` out of bounds. -/
def pyIdx (v : List Int) (i : Nat) : Except String Int :=
  match v.get? i with
  | some c => .ok c
  | none => .error "IndexError"

/-- Remove every binding with the given key (a `CaseMap` holds at most one). -/
def eraseAllKey : CaseMap → Int → CaseMap
  | [], _ => []
  | (k', v) :: rest, k => if k' = k then eraseAllKey rest k else (k', v) :: eraseAllKey rest k

/-- Models Python `del d[k]`: raises `KeyError` when the key is absent,
otherwise removes the (unique) binding. -/
def eraseKey! (m : CaseMap) (k : Int) : Except String CaseMap :=
  if mapHas m k then .ok (eraseAllKey m k) else .error "KeyError"

/-- Models `sorted(d.keys())` for a `CaseMap` in canonical (ascending)
representation. -/
def sorted_keys (m : CaseMap) : List Int := m.map Prod.fst

/-- Representation invariant of a `CaseMap`: keys strictly ascending (hence
distinct), as produced by reading a Python dict in sorted key order. -/
def MapWF (m : CaseMap) : Prop := List.Pairwise (· < ·) (sorted_keys m)

instance decidableMapWF (m : CaseMap) : Decidable (MapWF m) :=
  inferInstanceAs (Decidable (List.Pairwise (· < ·) (sorted_keys m)))

/-- `is_bidirectional_conversion` (source lines 538-565): `letter_id` is
present with a single-codepoint output whose entry in the reverse map is a
single codepoint equal to `letter_id`. -/
def is_bidirectional_conversion (letter_id : Int) (letter_case reverse_letter_case : CaseMap) :
    Except String Bool :=
  if ¬ mapHas letter_case letter_id then .ok false
  else do
    let mapped_value ← pyGet letter_case letter_id
    if mapped_value.length > 1 then .ok false
    else do
      let mapped_value_id ← pyOrd mapped_value
      if ¬ mapHas reverse_letter_case mapped_value_id then .ok false
      else do
        let rv ← pyGet reverse_letter_case mapped_value_id
        if rv.length > 1 then .ok false
        else do
          let rid ← pyOrd rv
          if rid ≠ letter_id then .ok false else .ok true

/-- `calculate_conversion_distance` (source lines 568-581): `None` when the
codepoint is absent or its output is longer than 1, otherwise the signed
output-minus-input distance (`ord` raises on a length-0 output). -/
def calculate_conversion_distance (letter_case : CaseMap) (letter_id : Int) :
    Except String (Option Int) :=
  if ¬ mapHas letter_case letter_id then .ok none
  else do
    let v ← pyGet letter_case letter_id
    if v.length > 1 then .ok none
    else do
      let o ← pyOrd v
      .ok (some (o - letter_id))

/-- Increment the last element of a list (models `lst[pos] += d` where `pos`
always indexes the last element: the source increments `range_position` in
lockstep with appending to the lengths list). -/
def incLast : List Nat → Nat → List Nat
  | [], _ => []
  | [x], d => [x + d]
  | x :: xs, d => x :: incLast xs d

/-- Scan state of `extract_ranges` (`in_range`, `ranges`, `range_lengths`;
`range_position` is represented implicitly: it always equals
`lens.length - 1` when used). -/
structure RScan where
  inRange : Bool
  ranges : List Int
  lens : List Nat
deriving Repr, DecidableEq

/-- The early-`continue` eligibility checks of one `extract_ranges` scan
iteration (source lines 311-329): `true` means the iteration sets
`in_range = False` and continues. -/
def rangesSkip (letter_case : CaseMap) (reverse_letter_case : Option CaseMap)
    (letter_id : Int) : Except String Bool :=
  match reverse_letter_case with
  | none => do
      let v ← pyGet letter_case letter_id
      if v.length > 1 then pure true
      else if ¬ mapHas letter_case (letter_id - 1) then pure true
      else do
        let pv ← pyGet letter_case (letter_id - 1)
        pure (pv.length > 1)
  | some r => do
      let b1 ← is_bidirectional_conversion letter_id letter_case r
      if !b1 then pure true
      else do
        let b2 ← is_bidirectional_conversion (letter_id - 1) letter_case r
        pure (!b2)

/-- The distance comparison and extend-or-open part of one `extract_ranges`
scan iteration (source lines 331-346). -/
def rangesTail (letter_case : CaseMap) (st : RScan) (letter_id : Int) :
    Except String RScan := do
  let conv_distance ← calculate_conversion_distance letter_case letter_id
  let prev_conv_distance ← calculate_conversion_distance letter_case (letter_id - 1)
  if conv_distance ≠ prev_conv_distance then pure { st with inRange := false }
  else if st.inRange then pure { st with lens := incLast st.lens 1 }
  else do
    let pv ← pyGet letter_case (letter_id - 1)
    let o ← pyOrd pv
    pure ⟨true, st.ranges ++ [letter_id - 1, o], st.lens ++ [2]⟩

/-- One iteration of the scan loop of `extract_ranges` (source lines 308-346). -/
def rangesStep (letter_case : CaseMap) (reverse_letter_case : Option CaseMap)
    (st : RScan) (letter_id : Int) : Except String RScan := do
  let skip ← rangesSkip letter_case reverse_letter_case letter_id
  if skip then pure { st with inRange := false }
  else rangesTail letter_case st letter_id

/-- Group a flat list two at a time (used to state per-range properties of
the flat tables; emitted tables always have even length). -/
def chunk2 : List Int → List (Int × Int)
  | a :: b :: rest => (a, b) :: chunk2 rest
  | _ => []

/-- Group a flat list three at a time. -/
def chunk3 : List Int → List (Int × Int × Int)
  | a :: b :: c :: rest => (a, b, c) :: chunk3 rest
  | _ => []

/-- Delete `n` consecutive codepoints starting at `s` from the map (and the
positions starting at `ms` from the reverse map when present), interleaved as
in the removal loop of `extract_ranges` (source lines 349-355). -/
def delRun2 : CaseMap → Option CaseMap → Int → Int → Nat → Except String (CaseMap × Option CaseMap)
  | m, rev, _, _, 0 => .ok (m, rev)
  | m, rev, s, ms, Nat.succ n => do
      let m' ← eraseKey! m s
      match rev with
      | none => delRun2 m' none (s + 1) (ms + 1) n
      | some r => do
          let r' ← eraseKey! r ms
          delRun2 m' (some r') (s + 1) (ms + 1) n

/-- Removal phase of `extract_ranges`: the flat `ranges` list is read two
entries at a time (`ranges[idx]`, `ranges[idx + 1]`), one run per pair with
the corresponding length; running out of entries is the loop's IndexError. -/
def delRanges : CaseMap → Option CaseMap → List Int → List Nat →
    Except String (CaseMap × Option CaseMap)
  | m, rev, [], _ => .ok (m, rev)
  | m, rev, s :: ms :: rest, l :: ls => do
      let (m', rev') ← delRun2 m rev s ms l
      delRanges m' rev' rest ls
  | _, _, _, _ => .error "IndexError"

/-- `extract_ranges` (source lines 292-357): scan the keys in ascending order
for maximal constant-offset runs (bidirectional when a reverse map is given,
one-directional otherwise), then delete every covered codepoint. -/
def extract_ranges (letter_case : CaseMap) (reverse_letter_case : Option CaseMap := none) :
    Except String ((List Int × List Nat) × CaseMap × Option CaseMap) := do
  let st ← (sorted_keys letter_case).foldlM
    (rangesStep letter_case reverse_letter_case) ⟨false, [], []⟩
  let (m', rev') ← delRanges letter_case reverse_letter_case st.ranges st.lens
  .ok ((st.ranges, st.lens), m', rev')

/-- Scan state of `extract_character_pair_ranges`. -/
structure PScan where
  inRange : Bool
  starts : List Int
  lens : List Nat
deriving Repr, DecidableEq

/-- One iteration of the scan loop of `extract_character_pair_ranges`
(source lines 374-395).  Note that in the branch where the codepoint maps to
its successor, a range is opened unconditionally when no range is in
progress. -/
def pairRangesStep (letter_case reverse_letter_case : CaseMap)
    (st : PScan) (letter_id : Int) : Except String PScan := do
  let b ← is_bidirectional_conversion letter_id letter_case reverse_letter_case
  if !b then pure { st with inRange := false }
  else do
    let mv ← pyGet letter_case letter_id
    let o ← pyOrd mv
    if o = letter_id + 1 then do
      let pb ← is_bidirectional_conversion (letter_id - 2) letter_case reverse_letter_case
      let ir := if !pb then false else st.inRange
      if ir then pure { st with inRange := ir, lens := incLast st.lens 2 }
      else pure ⟨true, st.starts ++ [letter_id], st.lens ++ [2]⟩
    else pure { st with inRange := false }

/-- Delete `n` pairs `(s, s+1), (s+2, s+3), …` from the two maps, as in the
removal loop of `extract_character_pair_ranges` (source lines 398-404);
`n` iterations model `range(0, conv_length, 2)`. -/
def delPairRun : CaseMap → CaseMap → Int → Nat → Except String (CaseMap × CaseMap)
  | lc, rc, _, 0 => .ok (lc, rc)
  | lc, rc, s, Nat.succ n => do
      let lc' ← eraseKey! lc s
      let rc' ← eraseKey! rc (s + 1)
      delPairRun lc' rc' (s + 2) n

/-- Removal phase of `extract_character_pair_ranges`. -/
def delPairs : CaseMap → CaseMap → List Int → List Nat → Except String (CaseMap × CaseMap)
  | lc, rc, [], _ => .ok (lc, rc)
  | _, _, _ :: _, [] => .error "IndexError"
  | lc, rc, s :: ss, l :: ls => do
      let (lc', rc') ← delPairRun lc rc s ((l + 1) / 2)
      delPairs lc' rc' ss ls

/-- `extract_character_pair_ranges` (source lines 360-406). -/
def extract_character_pair_ranges (letter_case reverse_letter_case : CaseMap) :
    Except String ((List Int × List Nat) × CaseMap × CaseMap) := do
  let st ← (sorted_keys letter_case).foldlM
    (pairRangesStep letter_case reverse_letter_case) ⟨false, [], []⟩
  let (lc', rc') ← delPairs letter_case reverse_letter_case st.starts st.lens
  .ok ((st.starts, st.lens), lc', rc')

/-- One iteration of `extract_character_pairs` (source lines 420-427): the
bidirectionality test runs against the maps as already mutated by earlier
iterations, and a found pair is deleted from both maps immediately. -/
def pairsStep (st : List Int × CaseMap × CaseMap) (letter_id : Int) :
    Except String (List Int × CaseMap × CaseMap) := do
  let (pairs, lc, rc) := st
  let b ← is_bidirectional_conversion letter_id lc rc
  if b then do
    let mv ← pyGet lc letter_id
    let o ← pyOrd mv
    let lc' ← eraseKey! lc letter_id
    let rc' ← eraseKey! rc o
    pure (pairs ++ [letter_id, o], lc', rc')
  else pure st

/-- `extract_character_pairs` (source lines 409-429): the key order is a
snapshot of the keys at entry, sorted ascending. -/
def extract_character_pairs (letter_case reverse_letter_case : CaseMap) :
    Except String (List Int × CaseMap × CaseMap) := do
  let (pairs, lc', rc') ← (sorted_keys letter_case).foldlM pairsStep
    ([], letter_case, reverse_letter_case)
  .ok (pairs, lc', rc')

/-- Scan state of `extract_special_ranges`; `in_range` is `none` until first
assigned, modelling the Python local that is read before any assignment on
some inputs (an `UnboundLocalError`). -/
structure SScan where
  inRange : Option Bool
  triples : List Int
  lens : List Nat
deriving Repr, DecidableEq

/-- One iteration of the scan loop of `extract_special_ranges` (source lines
447-478).  The branches for a non-length-2 value, a non-length-2 predecessor
value and a differing second output codepoint leave `in_range` untouched. -/
def specialStep (letter_case : CaseMap) (st : SScan) (letter_id : Int) :
    Except String SScan := do
  let mapped_value ← pyGet letter_case letter_id
  if mapped_value.length ≠ 2 then pure st
  else
    let prev_letter_id := letter_id - 1
    if ¬ mapHas letter_case prev_letter_id then pure { st with inRange := some false }
    else do
      let prev_mapped_value ← pyGet letter_case prev_letter_id
      if prev_mapped_value.length ≠ 2 then pure st
      else do
        let p1 ← pyIdx prev_mapped_value 1
        let m1 ← pyIdx mapped_value 1
        if p1 ≠ m1 then pure st
        else do
          let p0 ← pyIdx prev_mapped_value 0
          let m0 ← pyIdx mapped_value 0
          if p0 - prev_letter_id ≠ m0 - letter_id then pure { st with inRange := some false }
          else
            match st.inRange with
            | none => .error "UnboundLocalError"
            | some true => pure { st with lens := incLast st.lens 1 }
            | some false =>
                pure ⟨some true, st.triples ++ [prev_letter_id, p0, p1], st.lens ++ [1]⟩

/-- Delete `n` consecutive codepoints starting at `s` from a single map. -/
def delRun : CaseMap → Int → Nat → Except String CaseMap
  | m, _, 0 => .ok m
  | m, s, Nat.succ n => do
      let m' ← eraseKey! m s
      delRun m' (s + 1) n

/-- Removal phase of `extract_special_ranges` (source lines 481-486): the
flat list is read three entries at a time, deleting a run from each `start`. -/
def delSpecial : CaseMap → List Int → List Nat → Except String CaseMap
  | m, [], _ => .ok m
  | m, s :: _ :: _ :: rest, l :: ls => do
      let m' ← delRun m s l
      delSpecial m' rest ls
  | _, _, _ => .error "IndexError"

/-- `extract_special_ranges` (source lines 432-488). -/
def extract_special_ranges (letter_case : CaseMap) :
    Except String ((List Int × List Nat) × CaseMap) := do
  let st ← (sorted_keys letter_case).foldlM (specialStep letter_case) ⟨none, [], []⟩
  let m' ← delSpecial letter_case st.triples st.lens
  .ok ((st.triples, st.lens), m')

/-- One iteration of an `extract_conversions` pass for arity `n` (source
lines 504-531): a key whose value has length `n` is emitted as the key
followed by its `n` output codepoints and deleted.  For `n = 1` the emitted
`[letter_id, ord(mapped_value)]` and for `n = 2, 3` the emitted
`[letter_id, *map(ord, mapped_value)]` both equal `letter_id :: mapped_value`
here, because values are already codepoint lists. -/
def convStep (n : Nat) (st : List Int × CaseMap) (letter_id : Int) :
    Except String (List Int × CaseMap) := do
  let (acc, m) := st
  let mapped_value ← pyGet m letter_id
  if mapped_value.length = n then do
    let m' ← eraseKey! m letter_id
    pure (acc ++ letter_id :: mapped_value, m')
  else pure (acc, m)

/-- One pass of `extract_conversions`: snapshot the sorted keys of the
current map, then emit-and-delete every key of arity `n`. -/
def convPass (n : Nat) (m : CaseMap) : Except String (List Int × CaseMap) :=
  (sorted_keys m).foldlM (convStep n) ([], m)

/-- `extract_conversions` (source lines 491-535): three passes (arity 1, 2,
3) over the shrinking map; the counters are the per-arity entry counts. -/
def extract_conversions (letter_case : CaseMap) :
    Except String ((List Int × List Nat) × CaseMap) := do
  let (u0, m1) ← convPass 1 letter_case
  let (u1, m2) ← convPass 2 m1
  let (u2, m3) ← convPass 3 m2
  .ok ((u0 ++ u1 ++ u2, [u0.length / 2, u1.length / 3, u2.length / 4]), m3)

/-- The seven tables assembled by `ConversionTables.__init__`, together with
the final states of the two maps and the emitted warnings. -/
structure Tables where
  character_case_ranges : List Int × List Nat
  character_pair_ranges : List Int × List Nat
  character_pairs : List Int
  upper_case_special_ranges : List Int × List Nat
  lower_case_ranges : List Int × List Nat
  lower_case_conversions : List Int × List Nat
  upper_case_conversions : List Int × List Nat
  final_lower : CaseMap
  final_upper : CaseMap
  warnings : List String
deriving Repr, DecidableEq

/-- The fixed extraction pipeline of `ConversionTables.__init__` (source
lines 156-181): seven stages in order, then a warning (not a failure) for
each map left non-empty. -/
def ConversionTables (lower_case upper_case : CaseMap) : Except String Tables := do
  let (ccr, lc1, ucOpt1) ← extract_ranges lower_case (some upper_case)
  let some uc1 := ucOpt1 | .error "internal"
  let (cpr, lc2, uc2) ← extract_character_pair_ranges lc1 uc1
  let (cp, lc3, uc3) ← extract_character_pairs lc2 uc2
  let (usr, uc4) ← extract_special_ranges uc3
  let (lcr, lc4, _) ← extract_ranges lc3 none
  let (lconv, lc5) ← extract_conversions lc4
  let (uconv, uc5) ← extract_conversions uc4
  let warns :=
    (if lc5.isEmpty then [] else ["Not all elements extracted from the lowercase table!"]) ++
    (if uc5.isEmpty then [] else ["Not all elements extracted from the uppercase table!"])
  .ok ⟨ccr, cpr, cp, usr, lcr, lconv, uconv, lc5, uc5, warns⟩

/-- `buildMap` inserts a binding into the canonical (sorted) representation,
replacing any existing binding for the key: Python dict assignment. -/
def insertSorted : CaseMap → Int → List Int → CaseMap
  | [], k, v => [(k, v)]
  | (k', v') :: rest, k, v =>
    if k < k' then (k, v) :: (k', v') :: rest
    else if k = k' then (k, v) :: rest
    else (k', v') :: insertSorted rest k v

/-- Build the canonical representation of a Python dict from its insertion
sequence (later assignments to the same key win). -/
def buildMap (l : List (Int × List Int)) : CaseMap :=
  l.foldl (fun m p => insertSorted m p.1 p.2) []

/-- The key-to-value mapping a Python dict holds after the given insertion
sequence: the last binding for a key wins. -/
def dictGet (l : List (Int × List Int)) (k : Int) : Option (List Int) :=
  mapGet? l.reverse k

/-- Positions `s, s+1, …, s+n-1`: the codepoints deleted by one removal run. -/
def runList (s : Int) (n : Nat) : List Int := (List.range n).map (fun i : Nat => s + (i : Int))

/-- Even-step positions `s, s+2, …` (`n` of them): the forward-map codepoints
deleted for one pair range. -/
def pairRunL (s : Int) (n : Nat) : List Int := (List.range n).map (fun i : Nat => s + 2 * (i : Int))

/-- Odd-step positions `s+1, s+3, …` (`n` of them): the reverse-map codepoints
deleted for one pair range. -/
def pairRunU (s : Int) (n : Nat) : List Int := (List.range n).map (fun i : Nat => s + 2 * (i : Int) + 1)

/-- Forward-map domain encoded by a `(ranges, lengths)` table of
`extract_ranges`: for each `(start, mapped_start)` pair, the `length`
codepoints from `start`. -/
def covRangesL : List Int → List Nat → List Int
  | a :: _ :: rest, l :: ls => runList a l ++ covRangesL rest ls
  | _, _ => []

/-- Reverse-map domain encoded by a `(ranges, lengths)` table of
`extract_ranges`: the `length` codepoints from each `mapped_start`. -/
def covRangesU : List Int → List Nat → List Int
  | _ :: b :: rest, l :: ls => runList b l ++ covRangesU rest ls
  | _, _ => []

/-- Forward-map domain encoded by a `(start_points, lengths)` table of
`extract_character_pair_ranges`. -/
def covPairL : List Int → List Nat → List Int
  | s :: ss, l :: ls => pairRunL s ((l + 1) / 2) ++ covPairL ss ls
  | _, _ => []

/-- Reverse-map domain encoded by a `(start_points, lengths)` table of
`extract_character_pair_ranges`. -/
def covPairU : List Int → List Nat → List Int
  | s :: ss, l :: ls => pairRunU s ((l + 1) / 2) ++ covPairU ss ls
  | _, _ => []

/-- Domain encoded by a `(special_ranges, lengths)` table of
`extract_special_ranges`: the `length` codepoints from each `start`. -/
def covSpec : List Int → List Nat → List Int
  | s :: _ :: _ :: rest, l :: ls => runList s l ++ covSpec rest ls
  | _, _ => []

/-- Elements at even positions of a flat pair list. -/
def evens : List Int → List Int
  | [] => []
  | [a] => [a]
  | a :: _ :: rest => a :: evens rest

/-- Elements at odd positions of a flat pair list. -/
def odds : List Int → List Int
  | [] => []
  | [_] => []
  | _ :: b :: rest => b :: odds rest

/-- First codepoints of `count` consecutive fixed-width entry blocks of a
flat conversions table. -/
def convHeads : Nat → Nat → List Int → List Int
  | 0, _, _ => []
  | _ + 1, _, [] => []
  | c + 1, w, x :: rest => x :: convHeads c w (rest.drop (w - 1))

/-- Domain encoded by a `(conversions, counters)` table of
`extract_conversions`: the input codepoint of every entry, decoded from the
flat table by the three arity counters. -/
def convDomain (out : List Int × List Nat) : List Int :=
  match out.2 with
  | [c1, c2, c3] =>
      convHeads c1 2 out.1 ++ convHeads c2 3 (out.1.drop (2 * c1)) ++
        convHeads c3 4 ((out.1.drop (2 * c1)).drop (3 * c2))
  | _ => []

/-- Effect of one extraction stage on one map: the deleted codepoints `cov`
are distinct, were present, and the stage removed exactly them (the result
is also a sublist of the input, so representation invariants persist). -/
def StageChar (m m' : CaseMap) (cov : List Int) : Prop :=
  cov.Nodup ∧ (∀ p ∈ cov, (mapGet? m p).isSome) ∧
    (∀ q, mapGet? m' q = if q ∈ cov then none else mapGet? m q) ∧
    m'.Sublist m


lemma mapGet?_eraseAllKey (m : CaseMap) (k q : Int) :
    mapGet? (eraseAllKey m k) q = if q = k then none else mapGet? m q := by
  induction m with
  | nil => simp [eraseAllKey, mapGet?]
  | cons hd tl ih =>
    obtain ⟨k', v⟩ := hd
    by_cases hk : k' = k
    · rw [eraseAllKey, if_pos hk, ih]
      by_cases hq : q = k
      · simp [hq]
      · have hkq : ¬ k' = q := by omega
        rw [if_neg hq, if_neg hq, mapGet?, if_neg hkq]
    · rw [eraseAllKey, if_neg hk]
      by_cases hq : k' = q
      · have hqk : ¬ q = k := by omega
        rw [mapGet?, if_pos hq, if_neg hqk, mapGet?, if_pos hq]
      · rw [mapGet?, if_neg hq, ih, mapGet?, if_neg hq]

lemma eraseAllKey_sublist (m : CaseMap) (k : Int) : (eraseAllKey m k).Sublist m := by
  induction m with
  | nil => simp [eraseAllKey]
  | cons hd tl ih =>
    obtain ⟨k', v⟩ := hd
    by_cases hk : k' = k
    · rw [eraseAllKey, if_pos hk]; exact ih.trans (List.sublist_cons_self _ _)
    · rw [eraseAllKey, if_neg hk]; exact ih.cons₂ _

lemma eraseKey!_ok {m m' : CaseMap} {k : Int} (h : eraseKey! m k = .ok m') :
    (mapGet? m k).isSome ∧ m' = eraseAllKey m k := by
  unfold eraseKey! mapHas at h
  by_cases hs : (mapGet? m k).isSome
  · rw [if_pos hs] at h
    exact ⟨hs, (Except.ok.inj h).symm⟩
  · rw [if_neg hs] at h
    simp at h

lemma stageChar_erase {m m' : CaseMap} {k : Int} (h : eraseKey! m k = .ok m') :
    StageChar m m' [k] := by
  obtain ⟨hsome, rfl⟩ := eraseKey!_ok h
  refine ⟨List.nodup_singleton k, ?_, ?_, eraseAllKey_sublist m k⟩
  · intro p hp; rw [List.mem_singleton] at hp; rwa [hp]
  · intro q
    rw [mapGet?_eraseAllKey]
    by_cases hq : q = k <;> simp [hq]

lemma stageChar_nil (m : CaseMap) : StageChar m m [] :=
  ⟨List.nodup_nil, by simp, by simp, List.Sublist.refl m⟩

lemma stageChar_trans {m m₁ m₂ : CaseMap} {c1 c2 : List Int}
    (h1 : StageChar m m₁ c1) (h2 : StageChar m₁ m₂ c2) :
    StageChar m m₂ (c1 ++ c2) := by
  obtain ⟨n1, p1, l1, s1⟩ := h1
  obtain ⟨n2, p2, l2, s2⟩ := h2
  have hdisj : ∀ q ∈ c2, q ∉ c1 := by
    intro q hq hqc1
    have := p2 q hq
    rw [l1 q, if_pos hqc1] at this
    simp at this
  refine ⟨?_, ?_, ?_, s2.trans s1⟩
  · rw [List.nodup_append]
    exact ⟨n1, n2, fun a ha hb => hdisj a hb ha⟩
  · intro p hp
    rcases List.mem_append.mp hp with h | h
    · exact p1 p h
    · have := p2 p h
      rwa [l1 p, if_neg (hdisj p h)] at this
  · intro q
    rw [l2 q, l1 q]
    by_cases hq2 : q ∈ c2
    · simp [hq2]
    · by_cases hq1 : q ∈ c1 <;> simp [hq1, hq2]

lemma mapGet?_isSome_of_mem {m : CaseMap} {p : Int × List Int} (h : p ∈ m) :
    (mapGet? m p.1).isSome := by
  induction m with
  | nil => simp at h
  | cons hd tl ih =>
    by_cases he : hd.1 = p.1
    · simp [mapGet?, he]
    · cases h with
      | head => exact absurd rfl he
      | tail _ h => rw [mapGet?, if_neg he]; exact ih h

lemma mapGet?_mem {m : CaseMap} {k : Int} {v : List Int} (h : mapGet? m k = some v) :
    (k, v) ∈ m := by
  induction m with
  | nil => simp [mapGet?] at h
  | cons hd tl ih =>
    by_cases he : hd.1 = k
    · rw [mapGet?, if_pos he] at h
      obtain ⟨a, b⟩ := hd
      cases he
      cases h
      exact .head _
    · rw [mapGet?, if_neg he] at h
      exact .tail _ (ih h)

lemma mapWF_of_sublist {m m' : CaseMap} (hs : m'.Sublist m) (h : MapWF m) : MapWF m' :=
  List.Pairwise.sublist (hs.map Prod.fst) h

lemma mapGet?_isSome_of_mem_keys {m : CaseMap} {k : Int} (h : k ∈ sorted_keys m) :
    (mapGet? m k).isSome := by
  rcases List.mem_map.mp h with ⟨p, hp, rfl⟩
  exact mapGet?_isSome_of_mem hp

lemma exceptBind_ok {α β : Type} {x : Except String α} {f : α → Except String β} {b : β}
    (h : (x >>= f) = .ok b) : ∃ a, x = .ok a ∧ f a = .ok b := by
  cases x with
  | ok a => exact ⟨a, rfl, h⟩
  | error e => simp [Bind.bind, Except.bind] at h

lemma runList_succ (s : Int) (n : Nat) : runList s (n + 1) = s :: runList (s + 1) n := by
  unfold runList
  rw [List.range_succ_eq_map]
  simp only [List.map_cons, List.map_map, Nat.cast_zero, add_zero]
  congr 1
  apply List.map_congr_left
  intro a _
  simp only [Function.comp_apply]
  push_cast
  ring

lemma pairRunL_succ (s : Int) (n : Nat) : pairRunL s (n + 1) = s :: pairRunL (s + 2) n := by
  unfold pairRunL
  rw [List.range_succ_eq_map]
  simp only [List.map_cons, List.map_map, Nat.cast_zero, mul_zero, add_zero]
  congr 1
  apply List.map_congr_left
  intro a _
  simp only [Function.comp_apply]
  push_cast
  ring

lemma pairRunU_succ (s : Int) (n : Nat) : pairRunU s (n + 1) = (s + 1) :: pairRunU (s + 2) n := by
  unfold pairRunU
  rw [List.range_succ_eq_map]
  simp only [List.map_cons, List.map_map, Nat.cast_zero, mul_zero, add_zero]
  congr 1
  apply List.map_congr_left
  intro a _
  simp only [Function.comp_apply]
  push_cast
  ring

lemma runList_zero (s : Int) : runList s 0 = [] := rfl

lemma delRun_char : ∀ (n : Nat) (m m' : CaseMap) (s : Int),
    delRun m s n = .ok m' → StageChar m m' (runList s n) := by
  intro n
  induction n with
  | zero =>
    intro m m' s h
    rw [delRun] at h
    cases h
    rw [runList_zero]
    exact stageChar_nil m
  | succ n ih =>
    intro m m' s h
    rw [delRun] at h
    obtain ⟨m₁, h1, h2⟩ := exceptBind_ok h
    rw [runList_succ]
    exact stageChar_trans (stageChar_erase h1) (ih m₁ m' (s + 1) h2)

lemma delRun2_none_char : ∀ (n : Nat) (m m' : CaseMap) (rev' : Option CaseMap) (s ms : Int),
    delRun2 m none s ms n = .ok (m', rev') →
    rev' = none ∧ StageChar m m' (runList s n) := by
  intro n
  induction n with
  | zero =>
    intro m m' rev' s ms h
    rw [delRun2] at h
    cases h
    exact ⟨rfl, by rw [runList_zero]; exact stageChar_nil m⟩
  | succ n ih =>
    intro m m' rev' s ms h
    rw [delRun2] at h
    obtain ⟨m₁, h1, h2⟩ := exceptBind_ok h
    obtain ⟨hrev, hc⟩ := ih m₁ m' rev' (s + 1) (ms + 1) h2
    rw [runList_succ]
    exact ⟨hrev, stageChar_trans (stageChar_erase h1) hc⟩

lemma delRun2_some_char : ∀ (n : Nat) (m r m' : CaseMap) (rev' : Option CaseMap) (s ms : Int),
    delRun2 m (some r) s ms n = .ok (m', rev') →
    ∃ r', rev' = some r' ∧ StageChar m m' (runList s n) ∧ StageChar r r' (runList ms n) := by
  intro n
  induction n with
  | zero =>
    intro m r m' rev' s ms h
    rw [delRun2] at h
    cases h
    exact ⟨r, rfl, by rw [runList_zero]; exact stageChar_nil m,
      by rw [runList_zero]; exact stageChar_nil r⟩
  | succ n ih =>
    intro m r m' rev' s ms h
    rw [delRun2] at h
    obtain ⟨m₁, h1, h2⟩ := exceptBind_ok h
    obtain ⟨r₁, hr1, h3⟩ := exceptBind_ok h2
    obtain ⟨r', hrev, hc, hrc⟩ := ih m₁ r₁ m' rev' (s + 1) (ms + 1) h3
    rw [runList_succ, runList_succ]
    exact ⟨r', hrev, stageChar_trans (stageChar_erase h1) hc,
      stageChar_trans (stageChar_erase hr1) hrc⟩

lemma delRanges_none_char : ∀ (flat : List Int) (ls : List Nat) (m m' : CaseMap)
    (rev' : Option CaseMap),
    delRanges m none flat ls = .ok (m', rev') →
    rev' = none ∧ StageChar m m' (covRangesL flat ls)
  | [], ls, m, m', rev', h => by
    rw [delRanges] at h
    cases h
    exact ⟨rfl, stageChar_nil m⟩
  | s :: ms :: rest, l :: ls, m, m', rev', h => by
    obtain ⟨⟨m₁, rev₁⟩, h1, h2⟩ := exceptBind_ok h
    obtain ⟨hrev₁, hc1⟩ := delRun2_none_char l m m₁ rev₁ s ms h1
    subst hrev₁
    obtain ⟨hrev, hc2⟩ := delRanges_none_char rest ls m₁ m' rev' h2
    exact ⟨hrev, stageChar_trans hc1 hc2⟩
  | s :: ms :: rest, [], m, m', rev', h => by
    have hred : delRanges m none (s :: ms :: rest) [] = .error "IndexError" := rfl
    rw [hred] at h
    exact Except.noConfusion h
  | [x], ls, m, m', rev', h => by
    have hred : delRanges m none [x] ls = .error "IndexError" := rfl
    rw [hred] at h
    exact Except.noConfusion h

lemma delRanges_some_char : ∀ (flat : List Int) (ls : List Nat) (m r m' : CaseMap)
    (rev' : Option CaseMap),
    delRanges m (some r) flat ls = .ok (m', rev') →
    ∃ r', rev' = some r' ∧ StageChar m m' (covRangesL flat ls) ∧
      StageChar r r' (covRangesU flat ls)
  | [], ls, m, r, m', rev', h => by
    rw [delRanges] at h
    cases h
    exact ⟨r, rfl, stageChar_nil m, stageChar_nil r⟩
  | s :: ms :: rest, l :: ls, m, r, m', rev', h => by
    obtain ⟨⟨m₁, rev₁⟩, h1, h2⟩ := exceptBind_ok h
    obtain ⟨r₁, hrev₁, hc1, hr1⟩ := delRun2_some_char l m r m₁ rev₁ s ms h1
    subst hrev₁
    obtain ⟨r', hrev, hc2, hr2⟩ := delRanges_some_char rest ls m₁ r₁ m' rev' h2
    exact ⟨r', hrev, stageChar_trans hc1 hc2, stageChar_trans hr1 hr2⟩
  | s :: ms :: rest, [], m, r, m', rev', h => by
    have hred : delRanges m (some r) (s :: ms :: rest) [] = .error "IndexError" := rfl
    rw [hred] at h
    exact Except.noConfusion h
  | [x], ls, m, r, m', rev', h => by
    have hred : delRanges m (some r) [x] ls = .error "IndexError" := rfl
    rw [hred] at h
    exact Except.noConfusion h

lemma delPairRun_char : ∀ (n : Nat) (lc rc lc' rc' : CaseMap) (s : Int),
    delPairRun lc rc s n = .ok (lc', rc') →
    StageChar lc lc' (pairRunL s n) ∧ StageChar rc rc' (pairRunU s n) := by
  intro n
  induction n with
  | zero =>
    intro lc rc lc' rc' s h
    rw [delPairRun] at h
    cases h
    exact ⟨by rw [show pairRunL s 0 = [] from rfl]; exact stageChar_nil lc,
      by rw [show pairRunU s 0 = [] from rfl]; exact stageChar_nil rc⟩
  | succ n ih =>
    intro lc rc lc' rc' s h
    rw [delPairRun] at h
    obtain ⟨lc₁, h1, h2⟩ := exceptBind_ok h
    obtain ⟨rc₁, h3, h4⟩ := exceptBind_ok h2
    obtain ⟨hl, hr⟩ := ih lc₁ rc₁ lc' rc' (s + 2) h4
    rw [pairRunL_succ, pairRunU_succ]
    exact ⟨stageChar_trans (stageChar_erase h1) hl,
      stageChar_trans (stageChar_erase h3) hr⟩

lemma delPairs_char : ∀ (ss : List Int) (ls : List Nat) (lc rc lc' rc' : CaseMap),
    delPairs lc rc ss ls = .ok (lc', rc') →
    StageChar lc lc' (covPairL ss ls) ∧ StageChar rc rc' (covPairU ss ls)
  | [], ls, lc, rc, lc', rc', h => by
    rw [delPairs] at h
    cases h
    exact ⟨stageChar_nil lc, stageChar_nil rc⟩
  | s :: ss, l :: ls, lc, rc, lc', rc', h => by
    obtain ⟨⟨lc₁, rc₁⟩, h1, h2⟩ := exceptBind_ok h
    obtain ⟨hl1, hr1⟩ := delPairRun_char ((l + 1) / 2) lc rc lc₁ rc₁ s h1
    obtain ⟨hl2, hr2⟩ := delPairs_char ss ls lc₁ rc₁ lc' rc' h2
    exact ⟨stageChar_trans hl1 hl2, stageChar_trans hr1 hr2⟩
  | s :: ss, [], lc, rc, lc', rc', h => by
    have hred : delPairs lc rc (s :: ss) [] = .error "IndexError" := rfl
    rw [hred] at h
    exact Except.noConfusion h

lemma delSpecial_char : ∀ (flat : List Int) (ls : List Nat) (m m' : CaseMap),
    delSpecial m flat ls = .ok m' → StageChar m m' (covSpec flat ls)
  | [], ls, m, m', h => by
    rw [delSpecial] at h
    cases h
    exact stageChar_nil m
  | s :: b :: c :: rest, l :: ls, m, m', h => by
    obtain ⟨m₁, h1, h2⟩ := exceptBind_ok h
    exact stageChar_trans (delRun_char l m m₁ s h1) (delSpecial_char rest ls m₁ m' h2)
  | s :: b :: c :: rest, [], m, m', h => by
    have hred : delSpecial m (s :: b :: c :: rest) [] = .error "IndexError" := rfl
    rw [hred] at h
    exact Except.noConfusion h
  | [x], ls, m, m', h => by
    have hred : delSpecial m [x] ls = .error "IndexError" := rfl
    rw [hred] at h
    exact Except.noConfusion h
  | [x, y], ls, m, m', h => by
    have hred : delSpecial m [x, y] ls = .error "IndexError" := rfl
    rw [hred] at h
    exact Except.noConfusion h

lemma extract_ranges_none_char {m m' : CaseMap} {rev' : Option CaseMap}
    {out : List Int × List Nat}
    (h : extract_ranges m none = .ok (out, m', rev')) :
    rev' = none ∧ StageChar m m' (covRangesL out.1 out.2) := by
  unfold extract_ranges at h
  obtain ⟨st, hst, h2⟩ := exceptBind_ok h
  obtain ⟨⟨m₁, rev₁⟩, hdel, h3⟩ := exceptBind_ok h2
  have h4 := Except.ok.inj h3
  obtain ⟨h5, h6, h7⟩ : (st.ranges, st.lens) = out ∧ m₁ = m' ∧ rev₁ = rev' := by
    refine ⟨congrArg Prod.fst h4, ?_, ?_⟩
    · exact congrArg (fun p => p.2.1) h4
    · exact congrArg (fun p => p.2.2) h4
  obtain ⟨hrev, hc⟩ := delRanges_none_char st.ranges st.lens m m₁ rev₁ hdel
  rw [← h5, ← h6, ← h7]
  exact ⟨hrev, hc⟩

lemma extract_ranges_some_char {m r m' : CaseMap} {rev' : Option CaseMap}
    {out : List Int × List Nat}
    (h : extract_ranges m (some r) = .ok (out, m', rev')) :
    ∃ r', rev' = some r' ∧ StageChar m m' (covRangesL out.1 out.2) ∧
      StageChar r r' (covRangesU out.1 out.2) := by
  unfold extract_ranges at h
  obtain ⟨st, hst, h2⟩ := exceptBind_ok h
  obtain ⟨⟨m₁, rev₁⟩, hdel, h3⟩ := exceptBind_ok h2
  have h4 := Except.ok.inj h3
  obtain ⟨h5, h6, h7⟩ : (st.ranges, st.lens) = out ∧ m₁ = m' ∧ rev₁ = rev' := by
    refine ⟨congrArg Prod.fst h4, ?_, ?_⟩
    · exact congrArg (fun p => p.2.1) h4
    · exact congrArg (fun p => p.2.2) h4
  obtain ⟨r', hrev, hc, hrc⟩ := delRanges_some_char st.ranges st.lens m r m₁ rev₁ hdel
  rw [← h5, ← h6, ← h7]
  exact ⟨r', hrev, hc, hrc⟩

lemma extract_character_pair_ranges_char {lc rc lc' rc' : CaseMap}
    {out : List Int × List Nat}
    (h : extract_character_pair_ranges lc rc = .ok (out, lc', rc')) :
    StageChar lc lc' (covPairL out.1 out.2) ∧ StageChar rc rc' (covPairU out.1 out.2) := by
  unfold extract_character_pair_ranges at h
  obtain ⟨st, hst, h2⟩ := exceptBind_ok h
  obtain ⟨⟨lc₁, rc₁⟩, hdel, h3⟩ := exceptBind_ok h2
  have h4 := Except.ok.inj h3
  obtain ⟨h5, h6, h7⟩ : (st.starts, st.lens) = out ∧ lc₁ = lc' ∧ rc₁ = rc' := by
    refine ⟨congrArg Prod.fst h4, ?_, ?_⟩
    · exact congrArg (fun p => p.2.1) h4
    · exact congrArg (fun p => p.2.2) h4
  obtain ⟨hl, hr⟩ := delPairs_char st.starts st.lens lc rc lc₁ rc₁ hdel
  rw [← h5, ← h6, ← h7]
  exact ⟨hl, hr⟩

lemma extract_special_ranges_char {m m' : CaseMap} {out : List Int × List Nat}
    (h : extract_special_ranges m = .ok (out, m')) :
    StageChar m m' (covSpec out.1 out.2) := by
  unfold extract_special_ranges at h
  obtain ⟨st, hst, h2⟩ := exceptBind_ok h
  obtain ⟨m₁, hdel, h3⟩ := exceptBind_ok h2
  have h4 := Except.ok.inj h3
  obtain ⟨h5, h6⟩ : (st.triples, st.lens) = out ∧ m₁ = m' :=
    ⟨congrArg Prod.fst h4, congrArg Prod.snd h4⟩
  rw [← h5, ← h6]
  exact delSpecial_char st.triples st.lens m m₁ hdel


lemma is_bidi_iff {c : Int} {lc rc : CaseMap} :
    is_bidirectional_conversion c lc rc = .ok true ↔
      ∃ mv, mapGet? lc c = some [mv] ∧ mapGet? rc mv = some [c] := by
  unfold is_bidirectional_conversion
  cases hlc : mapGet? lc c with
  | none => simp [mapHas, hlc]
  | some mv =>
    match mv with
    | [] => simp [mapHas, pyGet, pyOrd, hlc, Bind.bind, Except.bind]
    | [a] =>
      simp only [mapHas, hlc, Option.isSome_some, not_true_eq_false, if_false, ite_false,
        Bool.not_true, pyGet, pyOrd, Bind.bind, Except.bind, List.length_singleton, gt_iff_lt,
        lt_irrefl, if_neg, Option.some.injEq, List.cons.injEq, and_true, not_false_eq_true,
        if_true, ite_true]
      rw [exists_eq_left']
      cases hrc : mapGet? rc a with
      | none => simp [hrc]
      | some rv =>
        match rv with
        | [] => simp [hrc, pyOrd, Bind.bind, Except.bind]
        | [b] =>
          simp only [hrc, Option.isSome_some, not_true_eq_false, if_false, ite_false,
            Bool.not_true, pyOrd, Bind.bind, Except.bind, List.length_singleton, gt_iff_lt,
            lt_irrefl, if_neg, not_false_eq_true, if_true, ite_true, Option.some.injEq,
            List.cons.injEq, and_true]
          by_cases hb : b = c
          · subst hb
            simp
          · simp [hb]
        | b :: d :: tl =>
          simp [hrc, pyOrd, Bind.bind, Except.bind]
    | a :: b :: tl =>
      simp [mapHas, pyGet, hlc, Bind.bind, Except.bind]

lemma is_bidi_true_mem {c : Int} {lc rc : CaseMap}
    (h : is_bidirectional_conversion c lc rc = .ok true) : (mapGet? lc c).isSome := by
  obtain ⟨mv, h1, _⟩ := is_bidi_iff.mp h
  rw [h1]
  rfl

lemma stageChar_lift {m m' : CaseMap} {cov : List Int} {q : Int} {v : List Int}
    (hc : StageChar m m' cov) (h : mapGet? m' q = some v) : mapGet? m q = some v := by
  obtain ⟨-, -, hchar, -⟩ := hc
  rw [hchar q] at h
  by_cases hq : q ∈ cov
  · rw [if_pos hq] at h; cases h
  · rwa [if_neg hq] at h

lemma pairsFold_char : ∀ (ks : List Int) (acc : List Int) (lc rc : CaseMap) (pairs : List Int)
    (lc' rc' : CaseMap),
    ks.foldlM pairsStep (acc, lc, rc) = .ok (pairs, lc', rc') →
    ∃ newp : List Int, pairs = acc ++ newp ∧
      StageChar lc lc' (evens newp) ∧ StageChar rc rc' (odds newp) ∧
      (∀ ab ∈ (evens newp).zip (odds newp),
        mapGet? lc ab.1 = some [ab.2] ∧ mapGet? rc ab.2 = some [ab.1]) := by
  intro ks
  induction ks with
  | nil =>
    intro acc lc rc pairs lc' rc' h
    rw [List.foldlM_nil] at h
    have h4 := Except.ok.inj h
    obtain ⟨h5, h6, h7⟩ : acc = pairs ∧ lc = lc' ∧ rc = rc' :=
      ⟨congrArg Prod.fst h4, congrArg (fun p => p.2.1) h4, congrArg (fun p => p.2.2) h4⟩
    subst h5 h6 h7
    exact ⟨[], by simp, stageChar_nil lc, stageChar_nil rc, by simp [evens, odds]⟩
  | cons k ks ih =>
    intro acc lc rc pairs lc' rc' h
    rw [List.foldlM_cons] at h
    obtain ⟨⟨acc₁, lc₁, rc₁⟩, h1, h2⟩ := exceptBind_ok h
    unfold pairsStep at h1
    obtain ⟨b, hb, h3⟩ := exceptBind_ok h1
    cases b with
    | false =>
      simp only [Bool.false_eq_true, if_neg, if_false, ite_false] at h3
      have h4 := Except.ok.inj h3
      obtain ⟨h5, h6, h7⟩ : acc = acc₁ ∧ lc = lc₁ ∧ rc = rc₁ :=
        ⟨congrArg Prod.fst h4, congrArg (fun p => p.2.1) h4, congrArg (fun p => p.2.2) h4⟩
      rw [← h5, ← h6, ← h7] at h2
      exact ih acc lc rc pairs lc' rc' h2
    | true =>
      obtain ⟨mv', hlc, hrc⟩ := is_bidi_iff.mp hb
      simp only [if_pos, if_true, ite_true, pyGet, hlc, pyOrd, Bind.bind, Except.bind] at h3
      obtain ⟨el, hel1, hel2⟩ := exceptBind_ok h3
      obtain ⟨er, her1, her2⟩ := exceptBind_ok hel2
      have h4 := Except.ok.inj her2
      obtain ⟨h5, h6, h7⟩ : acc ++ [k, mv'] = acc₁ ∧ el = lc₁ ∧ er = rc₁ :=
        ⟨congrArg Prod.fst h4, congrArg (fun p => p.2.1) h4, congrArg (fun p => p.2.2) h4⟩
      rw [← h5, ← h6, ← h7] at h2
      obtain ⟨newp', hp, hcl, hcr, hpay⟩ := ih (acc ++ [k, mv']) el er pairs lc' rc' h2
      refine ⟨k :: mv' :: newp', by simpa using hp, ?_, ?_, ?_⟩
      · have := stageChar_trans (stageChar_erase hel1) hcl
        simpa [evens] using this
      · have := stageChar_trans (stageChar_erase her1) hcr
        simpa [odds] using this
      · intro ab hab
        rw [show evens (k :: mv' :: newp') = k :: evens newp' from rfl,
          show odds (k :: mv' :: newp') = mv' :: odds newp' from rfl] at hab
        rw [List.zip_cons_cons] at hab
        cases hab with
        | head => exact ⟨hlc, hrc⟩
        | tail _ hab =>
          obtain ⟨hl, hr⟩ := hpay ab hab
          exact ⟨stageChar_lift (stageChar_erase hel1) hl,
            stageChar_lift (stageChar_erase her1) hr⟩

lemma extract_character_pairs_char {lc rc lc' rc' : CaseMap} {pairs : List Int}
    (h : extract_character_pairs lc rc = .ok (pairs, lc', rc')) :
    StageChar lc lc' (evens pairs) ∧ StageChar rc rc' (odds pairs) ∧
      (∀ ab ∈ (evens pairs).zip (odds pairs),
        mapGet? lc ab.1 = some [ab.2] ∧ mapGet? rc ab.2 = some [ab.1]) := by
  unfold extract_character_pairs at h
  obtain ⟨⟨p₁, lc₁, rc₁⟩, h1, h2⟩ := exceptBind_ok h
  have h4 := Except.ok.inj h2
  obtain ⟨h5, h6, h7⟩ : p₁ = pairs ∧ lc₁ = lc' ∧ rc₁ = rc' :=
    ⟨congrArg Prod.fst h4, congrArg (fun p => p.2.1) h4, congrArg (fun p => p.2.2) h4⟩
  rw [h5, h6, h7] at h1
  obtain ⟨newp, hp, hcl, hcr, hpay⟩ := pairsFold_char (sorted_keys lc) [] lc rc pairs lc' rc' h1
  rw [hp, List.nil_append]
  exact ⟨hcl, hcr, hpay⟩

lemma convFold_char (n : Nat) : ∀ (ks : List Int) (acc : List Int) (mcur m₀ : CaseMap),
    ks.Nodup →
    (∀ k ∈ ks, mapGet? mcur k = mapGet? m₀ k) →
    (∀ k ∈ ks, (mapGet? m₀ k).isSome) →
    ∃ m', ks.foldlM (convStep n) (acc, mcur) = .ok
        (acc ++ (ks.filter (fun k => ((mapGet? m₀ k).getD []).length = n)).flatMap
          (fun k => k :: (mapGet? m₀ k).getD []), m') ∧
      StageChar mcur m' (ks.filter (fun k => ((mapGet? m₀ k).getD []).length = n)) := by
  intro ks
  induction ks with
  | nil =>
    intro acc mcur m₀ _ _ _
    exact ⟨mcur, by simp [List.foldlM_nil, pure, Except.pure], stageChar_nil mcur⟩
  | cons k ks ih =>
    intro acc mcur m₀ hnd hagree hsome
    have hk : mapGet? mcur k = mapGet? m₀ k := hagree k (.head _)
    obtain ⟨v, hv⟩ := Option.isSome_iff_exists.mp (hsome k (.head _))
    have hkv : mapGet? mcur k = some v := by rw [hk, hv]
    have hstep : ∀ st, convStep n (st, mcur) k =
        (if v.length = n then
          Except.ok (st ++ k :: v, eraseAllKey mcur k)
        else Except.ok (st, mcur)) := by
      intro st
      unfold convStep
      simp only [pyGet, hkv, Bind.bind, Except.bind]
      by_cases hl : v.length = n
      · rw [if_pos hl]
        have : eraseKey! mcur k = .ok (eraseAllKey mcur k) := by
          unfold eraseKey! mapHas
          rw [hkv]
          rfl
        rw [this, if_pos hl]
        rfl
      · rw [if_neg hl, if_neg hl]
        rfl
    have hndtl : ks.Nodup := (List.nodup_cons.mp hnd).2
    have hknotin : k ∉ ks := (List.nodup_cons.mp hnd).1
    by_cases hl : v.length = n
    · have hfc : List.filter (fun q => ((mapGet? m₀ q).getD []).length = n) (k :: ks) =
          k :: List.filter (fun q => ((mapGet? m₀ q).getD []).length = n) ks := by
        rw [List.filter_cons, if_pos (by simp [hv, hl])]
      have herase : eraseKey! mcur k = .ok (eraseAllKey mcur k) := by
        unfold eraseKey! mapHas
        rw [hkv]
        rfl
      have hchar1 : StageChar mcur (eraseAllKey mcur k) [k] := stageChar_erase herase
      obtain ⟨m', hfold, hchar2⟩ := ih (acc ++ k :: v) (eraseAllKey mcur k) m₀ hndtl
        (by
          intro q hq
          rw [mapGet?_eraseAllKey]
          rw [if_neg (by rintro rfl; exact hknotin hq)]
          exact hagree q (.tail _ hq))
        (fun q hq => hsome q (.tail _ hq))
      refine ⟨m', ?_, ?_⟩
      · rw [List.foldlM_cons, hstep acc, if_pos hl]
        show (ks.foldlM (convStep n) (acc ++ k :: v, eraseAllKey mcur k)) = _
        rw [hfold, hfc]
        simp [hv]
      · rw [hfc]
        exact stageChar_trans hchar1 hchar2
    · have hfc : List.filter (fun q => ((mapGet? m₀ q).getD []).length = n) (k :: ks) =
          List.filter (fun q => ((mapGet? m₀ q).getD []).length = n) ks := by
        rw [List.filter_cons, if_neg (by simp [hv, hl])]
      obtain ⟨m', hfold, hchar2⟩ := ih acc mcur m₀ hndtl
        (fun q hq => hagree q (.tail _ hq)) (fun q hq => hsome q (.tail _ hq))
      refine ⟨m', ?_, ?_⟩
      · rw [List.foldlM_cons, hstep acc, if_neg hl]
        show (ks.foldlM (convStep n) (acc, mcur)) = _
        rw [hfold, hfc]
      · rw [hfc]
        exact hchar2

lemma mem_sorted_keys_iff {m : CaseMap} {k : Int} :
    k ∈ sorted_keys m ↔ (mapGet? m k).isSome := by
  constructor
  · exact mapGet?_isSome_of_mem_keys
  · intro h
    obtain ⟨v, hv⟩ := Option.isSome_iff_exists.mp h
    exact List.mem_map.mpr ⟨(k, v), mapGet?_mem hv, rfl⟩

lemma sublist_eq_filter {p : Int → Bool} : ∀ {l₂ l₁ : List Int}, l₁.Sublist l₂ → l₂.Nodup →
    (∀ x, x ∈ l₁ ↔ x ∈ l₂ ∧ p x = true) → l₁ = l₂.filter p := by
  intro l₂
  induction l₂ with
  | nil =>
    intro l₁ hs _ _
    rw [List.sublist_nil.mp hs]
    rfl
  | cons a t ih =>
    intro l₁ hs hnd hiff
    have hat : a ∉ t := (List.nodup_cons.mp hnd).1
    have hndt : t.Nodup := (List.nodup_cons.mp hnd).2
    cases hs with
    | cons _ hs' =>
      have hpa : p a = false := by
        by_contra hpa
        have : a ∈ l₁ := (hiff a).mpr ⟨.head _, eq_true_of_ne_false hpa⟩
        exact hat (hs'.subset this)
      rw [List.filter_cons, if_neg (by rw [hpa]; exact Bool.false_ne_true)]
      refine ih hs' hndt ?_
      intro x
      constructor
      · intro hx
        obtain ⟨hmem, hpx⟩ := (hiff x).mp hx
        cases hmem with
        | head =>
          exact absurd hpx (by rw [hpa]; exact Bool.false_ne_true)
        | tail _ hmem => exact ⟨hmem, hpx⟩
      · intro ⟨hmem, hpx⟩
        exact (hiff x).mpr ⟨.tail _ hmem, hpx⟩
    | cons₂ l₁' hs' =>
      have hpa : p a = true := ((hiff a).mp (.head _)).2
      rw [List.filter_cons, if_pos hpa]
      refine congrArg (a :: ·) (ih hs' hndt ?_)
      intro x
      constructor
      · intro hx
        obtain ⟨hmem, hpx⟩ := (hiff x).mp (.tail _ hx)
        cases hmem with
        | head => exact absurd (hs'.subset hx) hat
        | tail _ hmem => exact ⟨hmem, hpx⟩
      · intro ⟨hmem, hpx⟩
        have := (hiff x).mpr ⟨.tail _ hmem, hpx⟩
        cases this with
        | head => exact absurd hmem hat
        | tail _ h => exact h

lemma sorted_keys_of_stageChar {m m' : CaseMap} {cov : List Int}
    (hwf : MapWF m) (hc : StageChar m m' cov) :
    sorted_keys m' = (sorted_keys m).filter (fun k => decide (k ∉ cov)) := by
  obtain ⟨-, -, hchar, hsub⟩ := hc
  refine sublist_eq_filter (hsub.map Prod.fst) (hwf.imp (fun h => ne_of_lt h)) ?_
  intro x
  rw [mem_sorted_keys_iff, mem_sorted_keys_iff, hchar x]
  by_cases hx : x ∈ cov
  · simp [hx]
  · simp [hx]

/-- The keys of arity `n` in ascending order: the entries one
`extract_conversions` pass emits and deletes. -/
def convKeys (m : CaseMap) (n : Nat) : List Int :=
  (sorted_keys m).filter (fun k => ((mapGet? m k).getD []).length = n)

/-- The flat table block one `extract_conversions` pass emits. -/
def convEnc (m : CaseMap) (n : Nat) : List Int :=
  (convKeys m n).flatMap (fun k => k :: (mapGet? m k).getD [])

lemma convKeys_stable {m m1 : CaseMap} {cov : List Int} (hwf : MapWF m)
    (hc : StageChar m m1 cov) (n : Nat)
    (hdisj : ∀ k ∈ cov, ¬ ((mapGet? m k).getD []).length = n) :
    convKeys m1 n = convKeys m n ∧ convEnc m1 n = convEnc m n := by
  have hkeys : sorted_keys m1 = (sorted_keys m).filter (fun k => decide (k ∉ cov)) :=
    sorted_keys_of_stageChar hwf hc
  obtain ⟨-, -, hchar, -⟩ := hc
  have hk : convKeys m1 n = convKeys m n := by
    unfold convKeys
    rw [hkeys, List.filter_filter]
    refine List.filter_congr ?_
    intro k hk
    by_cases hkc : k ∈ cov
    · have h1 : mapGet? m1 k = none := by rw [hchar k, if_pos hkc]
      simp [h1, hkc, hdisj k hkc]
    · have h1 : mapGet? m1 k = mapGet? m k := by rw [hchar k, if_neg hkc]
      simp [h1, hkc]
  refine ⟨hk, ?_⟩
  unfold convEnc
  rw [hk]
  refine List.flatMap_congr ?_  -- may not exist; fallback below
  intro k hkmem
  have hkn : ((mapGet? m k).getD []).length = n := by
    have := List.mem_filter.mp hkmem
    simpa using this.2
  have hkc : k ∉ cov := fun hin => hdisj k hin hkn
  rw [hchar k, if_neg hkc]

lemma flatMap_block_length {m : CaseMap} {n : Nat} : ∀ (K : List Int),
    (∀ k ∈ K, ((mapGet? m k).getD []).length = n) →
    (K.flatMap (fun k => k :: (mapGet? m k).getD [])).length = K.length * (n + 1) := by
  intro K
  induction K with
  | nil => intro _; simp
  | cons k K ih =>
    intro hall
    rw [List.flatMap_cons, List.length_append, List.length_cons, hall k (.head _),
      ih (fun q hq => hall q (.tail _ hq)), List.length_cons]
    ring

lemma convHeads_decode {m : CaseMap} {n : Nat} : ∀ (K : List Int) (rest : List Int),
    (∀ k ∈ K, ((mapGet? m k).getD []).length = n) →
    convHeads K.length (n + 1) ((K.flatMap (fun k => k :: (mapGet? m k).getD [])) ++ rest) = K := by
  intro K
  induction K with
  | nil => intro _ _; rfl
  | cons k K ih =>
    intro rest hall
    rw [List.flatMap_cons, List.length_cons]
    have hshape : ((k :: (mapGet? m k).getD []) ++ K.flatMap (fun q => q :: (mapGet? m q).getD [])) ++ rest =
        k :: ((mapGet? m k).getD [] ++ (K.flatMap (fun q => q :: (mapGet? m q).getD []) ++ rest)) := by
      simp
    rw [hshape, convHeads]
    have hdrop : ((mapGet? m k).getD [] ++ (K.flatMap (fun q => q :: (mapGet? m q).getD []) ++ rest)).drop (n + 1 - 1) =
        K.flatMap (fun q => q :: (mapGet? m q).getD []) ++ rest := by
      have : n + 1 - 1 = ((mapGet? m k).getD []).length := by rw [hall k (.head _)]; omega
      rw [this, List.drop_left]
    rw [hdrop, ih rest (fun q hq => hall q (.tail _ hq))]

lemma convPass_spec {m : CaseMap} (n : Nat) (hwf : MapWF m) :
    ∃ m', convPass n m = .ok (convEnc m n, m') ∧ StageChar m m' (convKeys m n) := by
  obtain ⟨m', hfold, hchar⟩ := convFold_char n (sorted_keys m) [] m m
    (hwf.imp (fun h => ne_of_lt h)) (fun _ _ => rfl)
    (fun k hk => mapGet?_isSome_of_mem_keys hk)
  exact ⟨m', by rw [convPass, hfold]; rfl, hchar⟩

lemma convKeys_block_length {m : CaseMap} (n : Nat) :
    (convEnc m n).length = (convKeys m n).length * (n + 1) := by
  refine flatMap_block_length (convKeys m n) ?_
  intro k hk
  have := List.mem_filter.mp hk
  simpa using this.2

lemma extract_conversions_spec {m mfin : CaseMap} {out : List Int × List Nat}
    (hwf : MapWF m) (h : extract_conversions m = .ok (out, mfin)) :
    out.1 = convEnc m 1 ++ convEnc m 2 ++ convEnc m 3 ∧
    out.2 = [(convKeys m 1).length, (convKeys m 2).length, (convKeys m 3).length] ∧
    convDomain out = convKeys m 1 ++ convKeys m 2 ++ convKeys m 3 ∧
    StageChar m mfin (convKeys m 1 ++ convKeys m 2 ++ convKeys m 3) ∧
    (∀ q, mapGet? mfin q = if ((mapGet? m q).getD []).length = 1 ∨
        ((mapGet? m q).getD []).length = 2 ∨ ((mapGet? m q).getD []).length = 3
      then none else mapGet? m q) := by
  obtain ⟨m1, hp1, hc1⟩ := convPass_spec 1 hwf
  have hwf1 : MapWF m1 := mapWF_of_sublist hc1.2.2.2 hwf
  obtain ⟨m2, hp2, hc2⟩ := convPass_spec 2 hwf1
  have hwf2 : MapWF m2 := mapWF_of_sublist hc2.2.2.2 hwf1
  obtain ⟨m3, hp3, hc3⟩ := convPass_spec 3 hwf2
  -- stability of pass-2 and pass-3 data under the earlier passes
  have hd1 : ∀ k ∈ convKeys m 1, ¬ ((mapGet? m k).getD []).length = 2 := by
    intro k hk
    have := List.mem_filter.mp hk
    simp only [decide_eq_true_eq] at this
    omega
  have hd1' : ∀ k ∈ convKeys m 1, ¬ ((mapGet? m k).getD []).length = 3 := by
    intro k hk
    have := List.mem_filter.mp hk
    simp only [decide_eq_true_eq] at this
    omega
  obtain ⟨hK2, hE2⟩ := convKeys_stable hwf hc1 2 hd1
  obtain ⟨hK3a, hE3a⟩ := convKeys_stable hwf hc1 3 hd1'
  have hd2 : ∀ k ∈ convKeys m1 2, ¬ ((mapGet? m1 k).getD []).length = 3 := by
    intro k hk
    have := List.mem_filter.mp hk
    simp only [decide_eq_true_eq] at this
    omega
  obtain ⟨hK3, hE3⟩ := convKeys_stable hwf1 hc2 3 hd2
  -- compute the three passes
  have hcomp : extract_conversions m = .ok ((convEnc m 1 ++ convEnc m1 2 ++ convEnc m2 3,
      [(convEnc m 1).length / 2, (convEnc m1 2).length / 3, (convEnc m2 3).length / 4]), m3) := by
    unfold extract_conversions
    rw [hp1]
    simp only [Bind.bind, Except.bind]
    rw [hp2]
    simp only [Bind.bind, Except.bind]
    rw [hp3]
  rw [hcomp] at h
  have h6' := (Except.ok.inj h)
  obtain ⟨hout, hmfin⟩ : (convEnc m 1 ++ convEnc m1 2 ++ convEnc m2 3,
      [(convEnc m 1).length / 2, (convEnc m1 2).length / 3, (convEnc m2 3).length / 4]) = out ∧
      m3 = mfin := ⟨congrArg Prod.fst h6', congrArg Prod.snd h6'⟩
  have hE3' : convEnc m2 3 = convEnc m 3 := by rw [hE3, hE3a]
  have hl1 : (convEnc m 1).length / 2 = (convKeys m 1).length := by
    rw [convKeys_block_length 1]; omega
  have hl2 : (convEnc m1 2).length / 3 = (convKeys m 2).length := by
    rw [hE2, convKeys_block_length 2]; omega
  have hl3 : (convEnc m2 3).length / 4 = (convKeys m 3).length := by
    rw [hE3', convKeys_block_length 3]; omega
  have hout1 : out.1 = convEnc m 1 ++ convEnc m 2 ++ convEnc m 3 := by
    rw [← hout]
    show convEnc m 1 ++ convEnc m1 2 ++ convEnc m2 3 = _
    rw [hE2, hE3']
  have hout2 : out.2 = [(convKeys m 1).length, (convKeys m 2).length, (convKeys m 3).length] := by
    rw [← hout]
    show [(convEnc m 1).length / 2, (convEnc m1 2).length / 3, (convEnc m2 3).length / 4] = _
    rw [hl1, hl2, hl3]
  -- decode the domain
  have harities : ∀ n, ∀ k ∈ convKeys m n, ((mapGet? m k).getD []).length = n := by
    intro n k hk
    have := List.mem_filter.mp hk
    simpa using this.2
  have hdom : convDomain out = convKeys m 1 ++ convKeys m 2 ++ convKeys m 3 := by
    have hmatch : convDomain out = convHeads (convKeys m 1).length 2 out.1 ++
        convHeads (convKeys m 2).length 3 (out.1.drop (2 * (convKeys m 1).length)) ++
        convHeads (convKeys m 3).length 4
          ((out.1.drop (2 * (convKeys m 1).length)).drop (3 * (convKeys m 2).length)) := by
      unfold convDomain
      rw [hout2]
    rw [hmatch, hout1]
    have hdec1 : convHeads (convKeys m 1).length 2 (convEnc m 1 ++ convEnc m 2 ++ convEnc m 3) =
        convKeys m 1 := by
      rw [List.append_assoc]
      exact convHeads_decode (convKeys m 1) _ (harities 1)
    have hdrop1 : (convEnc m 1 ++ convEnc m 2 ++ convEnc m 3).drop (2 * (convKeys m 1).length) =
        convEnc m 2 ++ convEnc m 3 := by
      rw [List.append_assoc]
      have : 2 * (convKeys m 1).length = (convEnc m 1).length := by
        rw [convKeys_block_length 1]; ring
      rw [this, List.drop_left]
    have hdec2 : convHeads (convKeys m 2).length 3 (convEnc m 2 ++ convEnc m 3) = convKeys m 2 :=
      convHeads_decode (convKeys m 2) _ (harities 2)
    have hdrop2 : (convEnc m 2 ++ convEnc m 3).drop (3 * (convKeys m 2).length) = convEnc m 3 := by
      have : 3 * (convKeys m 2).length = (convEnc m 2).length := by
        rw [convKeys_block_length 2]; ring
      rw [this, List.drop_left]
    have hdec3 : convHeads (convKeys m 3).length 4 (convEnc m 3) = convKeys m 3 := by
      have := convHeads_decode (m := m) (convKeys m 3) [] (harities 3)
      simpa using this
    rw [hdrop1, hdec1, hdec2, hdrop2, hdec3]
  -- compose the three stage characterizations (second marker)
  have hchar : StageChar m mfin (convKeys m 1 ++ convKeys m 2 ++ convKeys m 3) := by
    rw [← hmfin]
    have hc2' : StageChar m1 m2 (convKeys m 2) := by rw [← hK2]; exact hc2
    have hc3' : StageChar m2 m3 (convKeys m 3) := by
      rw [← hK3a, ← hK3]
      exact hc3
    exact (stageChar_trans (stageChar_trans hc1 hc2') hc3')
  refine ⟨hout1, hout2, hdom, hchar, ?_⟩
  intro q
  obtain ⟨hnd, hpres, hcq, hsub⟩ := hchar
  rw [hcq q]
  by_cases hq : q ∈ convKeys m 1 ++ convKeys m 2 ++ convKeys m 3
  · rw [if_pos hq]
    have : ((mapGet? m q).getD []).length = 1 ∨ ((mapGet? m q).getD []).length = 2 ∨
        ((mapGet? m q).getD []).length = 3 := by
      rcases List.mem_append.mp hq with hq' | hq'
      · rcases List.mem_append.mp hq' with hq'' | hq''
        · exact Or.inl (harities 1 q hq'')
        · exact Or.inr (Or.inl (harities 2 q hq''))
      · exact Or.inr (Or.inr (harities 3 q hq'))
    rw [if_pos this]
  · rw [if_neg hq]
    by_cases hlen : ((mapGet? m q).getD []).length = 1 ∨ ((mapGet? m q).getD []).length = 2 ∨
        ((mapGet? m q).getD []).length = 3
    · rw [if_pos hlen]
      by_cases hsome : (mapGet? m q).isSome
      · exfalso
        apply hq
        have hmem : q ∈ sorted_keys m := mem_sorted_keys_iff.mpr hsome
        rcases hlen with h1 | h2 | h3
        · exact List.mem_append.mpr (Or.inl (List.mem_append.mpr (Or.inl
            (List.mem_filter.mpr ⟨hmem, by simpa using h1⟩))))
        · exact List.mem_append.mpr (Or.inl (List.mem_append.mpr (Or.inr
            (List.mem_filter.mpr ⟨hmem, by simpa using h2⟩))))
        · exact List.mem_append.mpr (Or.inr (List.mem_filter.mpr ⟨hmem, by simpa using h3⟩))
      · rw [Option.not_isSome_iff_eq_none] at hsome
        rw [hsome]
    · rw [if_neg hlen]

lemma eq_nil_of_lookup_none {m : CaseMap} (h : ∀ q, mapGet? m q = none) : m = [] := by
  cases m with
  | nil => rfl
  | cons p rest =>
    exfalso
    have := h p.1
    rw [mapGet?, if_pos rfl] at this
    cases this

/-- Codepoints of the lower-case map covered by the emitted tables of one
pipeline run. -/
def lowerCovered (t : Tables) : List Int :=
  covRangesL t.character_case_ranges.1 t.character_case_ranges.2 ++
  covPairL t.character_pair_ranges.1 t.character_pair_ranges.2 ++
  evens t.character_pairs ++
  covRangesL t.lower_case_ranges.1 t.lower_case_ranges.2 ++
  convDomain t.lower_case_conversions

/-- Codepoints of the upper-case map covered by the emitted tables of one
pipeline run. -/
def upperCovered (t : Tables) : List Int :=
  covRangesU t.character_case_ranges.1 t.character_case_ranges.2 ++
  covPairU t.character_pair_ranges.1 t.character_pair_ranges.2 ++
  odds t.character_pairs ++
  covSpec t.upper_case_special_ranges.1 t.upper_case_special_ranges.2 ++
  convDomain t.upper_case_conversions

lemma ConversionTables_spec {lower upper : CaseMap} {t : Tables}
    (hwfL : MapWF lower) (hwfU : MapWF upper)
    (hvL : ∀ p ∈ lower, p.2.length = 1 ∨ p.2.length = 2 ∨ p.2.length = 3)
    (hvU : ∀ p ∈ upper, p.2.length = 1 ∨ p.2.length = 2 ∨ p.2.length = 3)
    (h : ConversionTables lower upper = .ok t) :
    StageChar lower t.final_lower (lowerCovered t) ∧
    StageChar upper t.final_upper (upperCovered t) ∧
    t.final_lower = [] ∧ t.final_upper = [] ∧ t.warnings = [] := by
  unfold ConversionTables at h
  obtain ⟨⟨ccr, lc1, ucOpt1⟩, hs1, h⟩ := exceptBind_ok h
  obtain ⟨uc1, hucOpt1, hscL1, hscU1⟩ := extract_ranges_some_char hs1
  rw [hucOpt1] at h
  obtain ⟨⟨cpr, lc2, uc2⟩, hs2, h⟩ := exceptBind_ok h
  obtain ⟨hscL2, hscU2⟩ := extract_character_pair_ranges_char hs2
  obtain ⟨⟨cp, lc3, uc3⟩, hs3, h⟩ := exceptBind_ok h
  obtain ⟨hscL3, hscU3, -⟩ := extract_character_pairs_char hs3
  obtain ⟨⟨usr, uc4⟩, hs4, h⟩ := exceptBind_ok h
  have hscU4 := extract_special_ranges_char hs4
  obtain ⟨⟨lcr, lc4, o5⟩, hs5, h⟩ := exceptBind_ok h
  obtain ⟨-, hscL5⟩ := extract_ranges_none_char hs5
  obtain ⟨⟨lconv, lc5⟩, hs6, h⟩ := exceptBind_ok h
  obtain ⟨⟨uconv, uc5⟩, hs7, h⟩ := exceptBind_ok h
  -- well-formedness of the intermediate maps
  have hwfL4 : MapWF lc4 :=
    mapWF_of_sublist hscL5.2.2.2 (mapWF_of_sublist hscL3.2.2.2
      (mapWF_of_sublist hscL2.2.2.2 (mapWF_of_sublist hscL1.2.2.2 hwfL)))
  have hwfU4 : MapWF uc4 :=
    mapWF_of_sublist hscU4.2.2.2 (mapWF_of_sublist hscU3.2.2.2
      (mapWF_of_sublist hscU2.2.2.2 (mapWF_of_sublist hscU1.2.2.2 hwfU)))
  obtain ⟨hconvL1, hconvL2, hconvLdom, hconvLchar, hconvLfin⟩ :=
    extract_conversions_spec hwfL4 hs6
  obtain ⟨hconvU1, hconvU2, hconvUdom, hconvUchar, hconvUfin⟩ :=
    extract_conversions_spec hwfU4 hs7
  -- the result record
  have ht := Except.ok.inj h
  -- composed stage characterizations
  have hchainL4 : StageChar lower lc4
      (covRangesL ccr.1 ccr.2 ++ covPairL cpr.1 cpr.2 ++ evens cp ++ covRangesL lcr.1 lcr.2) :=
    stageChar_trans (stageChar_trans (stageChar_trans hscL1 hscL2) hscL3) hscL5
  have hchainU4 : StageChar upper uc4
      (covRangesU ccr.1 ccr.2 ++ covPairU cpr.1 cpr.2 ++ odds cp ++ covSpec usr.1 usr.2) :=
    stageChar_trans (stageChar_trans (stageChar_trans hscU1 hscU2) hscU3) hscU4
  have hscL6 : StageChar lc4 lc5 (convDomain lconv) := by
    rw [hconvLdom]
    exact hconvLchar
  have hscU6 : StageChar uc4 uc5 (convDomain uconv) := by
    rw [hconvUdom]
    exact hconvUchar
  have hchainL : StageChar lower lc5
      (covRangesL ccr.1 ccr.2 ++ covPairL cpr.1 cpr.2 ++ evens cp ++ covRangesL lcr.1 lcr.2 ++
        convDomain lconv) := stageChar_trans hchainL4 hscL6
  have hchainU : StageChar upper uc5
      (covRangesU ccr.1 ccr.2 ++ covPairU cpr.1 cpr.2 ++ odds cp ++ covSpec usr.1 usr.2 ++
        convDomain uconv) := stageChar_trans hchainU4 hscU6
  -- emptiness of the final maps
  have hfinL : lc5 = [] := by
    refine eq_nil_of_lookup_none ?_
    intro q
    rw [hconvLfin q]
    by_cases hq : ((mapGet? lc4 q).getD []).length = 1 ∨ ((mapGet? lc4 q).getD []).length = 2 ∨
        ((mapGet? lc4 q).getD []).length = 3
    · rw [if_pos hq]
    · rw [if_neg hq]
      cases hsome : mapGet? lc4 q with
      | none => rfl
      | some v =>
        exfalso
        apply hq
        have hlow : mapGet? lower q = some v := stageChar_lift hchainL4 hsome
        have := hvL (q, v) (mapGet?_mem hlow)
        simpa [hsome] using this
  have hfinU : uc5 = [] := by
    refine eq_nil_of_lookup_none ?_
    intro q
    rw [hconvUfin q]
    by_cases hq : ((mapGet? uc4 q).getD []).length = 1 ∨ ((mapGet? uc4 q).getD []).length = 2 ∨
        ((mapGet? uc4 q).getD []).length = 3
    · rw [if_pos hq]
    · rw [if_neg hq]
      cases hsome : mapGet? uc4 q with
      | none => rfl
      | some v =>
        exfalso
        apply hq
        have hup : mapGet? upper q = some v := stageChar_lift hchainU4 hsome
        have := hvU (q, v) (mapGet?_mem hup)
        simpa [hsome] using this
  -- read off the fields of the result
  have hccr : t.character_case_ranges = ccr := (congrArg Tables.character_case_ranges ht).symm
  have hcpr : t.character_pair_ranges = cpr := (congrArg Tables.character_pair_ranges ht).symm
  have hcp : t.character_pairs = cp := (congrArg Tables.character_pairs ht).symm
  have husr : t.upper_case_special_ranges = usr :=
    (congrArg Tables.upper_case_special_ranges ht).symm
  have hlcr : t.lower_case_ranges = lcr := (congrArg Tables.lower_case_ranges ht).symm
  have hlconv : t.lower_case_conversions = lconv :=
    (congrArg Tables.lower_case_conversions ht).symm
  have huconv : t.upper_case_conversions = uconv :=
    (congrArg Tables.upper_case_conversions ht).symm
  have hfl : t.final_lower = lc5 := (congrArg Tables.final_lower ht).symm
  have hfu : t.final_upper = uc5 := (congrArg Tables.final_upper ht).symm
  have hw : t.warnings = (if lc5.isEmpty then [] else
      ["Not all elements extracted from the lowercase table!"]) ++
      (if uc5.isEmpty then [] else
      ["Not all elements extracted from the uppercase table!"]) :=
    (congrArg Tables.warnings ht).symm
  refine ⟨?_, ?_, ?_, ?_, ?_⟩
  · unfold lowerCovered
    rw [hccr, hcpr, hcp, hlcr, hlconv, hfl]
    exact hchainL
  · unfold upperCovered
    rw [hccr, hcpr, hcp, husr, huconv, hfu]
    exact hchainU
  · rw [hfl, hfinL]
  · rw [hfu, hfinU]
  · rw [hw, hfinL, hfinU]
    rfl

/-- C3: for every input case map (keys ascending, output arities 1-3), when
the full seven-stage pipeline completes, the codepoints covered by the
emitted tiers' encodings are pairwise distinct and their union is exactly
the original key set of that map — every original codepoint is covered by
exactly one tier exactly once. -/
theorem C3_pipeline_partition {lower upper : CaseMap} {t : Tables}
    (hwfL : MapWF lower) (hwfU : MapWF upper)
    (hvL : ∀ p ∈ lower, p.2.length = 1 ∨ p.2.length = 2 ∨ p.2.length = 3)
    (hvU : ∀ p ∈ upper, p.2.length = 1 ∨ p.2.length = 2 ∨ p.2.length = 3)
    (h : ConversionTables lower upper = .ok t) :
    (lowerCovered t).Nodup ∧ (∀ k, k ∈ lowerCovered t ↔ (mapGet? lower k).isSome) ∧
    (upperCovered t).Nodup ∧ (∀ k, k ∈ upperCovered t ↔ (mapGet? upper k).isSome) := by
  obtain ⟨hL, hU, hfinL, hfinU, -⟩ := ConversionTables_spec hwfL hwfU hvL hvU h
  obtain ⟨hndL, hpresL, hcharL, -⟩ := hL
  obtain ⟨hndU, hpresU, hcharU, -⟩ := hU
  refine ⟨hndL, ?_, hndU, ?_⟩
  · intro k
    constructor
    · exact hpresL k
    · intro hsome
      by_contra hk
      have := hcharL k
      rw [if_neg hk, hfinL] at this
      rw [← this] at hsome
      cases hsome
  · intro k
    constructor
    · exact hpresU k
    · intro hsome
      by_contra hk
      have := hcharU k
      rw [if_neg hk, hfinU] at this
      rw [← this] at hsome
      cases hsome

/-- Witness for C3 at a concrete input: the isolated bidirectional pair
`(0x100, 0x101)` runs through the whole pipeline and the partition holds. -/
theorem C3_pipeline_partition_witness :
    (MapWF [((256 : Int), [(257 : Int)])] ∧ MapWF [((257 : Int), [(256 : Int)])] ∧
      ConversionTables [(256, [257])] [(257, [256])] = .ok
        ⟨([], []), ([256], [2]), [], ([], []), ([], []), ([], [0, 0, 0]), ([], [0, 0, 0]),
          [], [], []⟩) ∧
    ((lowerCovered ⟨([], []), ([256], [2]), [], ([], []), ([], []), ([], [0, 0, 0]),
        ([], [0, 0, 0]), [], [], []⟩).Nodup ∧
      (∀ k, k ∈ lowerCovered ⟨([], []), ([256], [2]), [], ([], []), ([], []), ([], [0, 0, 0]),
        ([], [0, 0, 0]), [], [], []⟩ ↔ (mapGet? [(256, [257])] k).isSome) ∧
      (upperCovered ⟨([], []), ([256], [2]), [], ([], []), ([], []), ([], [0, 0, 0]),
        ([], [0, 0, 0]), [], [], []⟩).Nodup ∧
      (∀ k, k ∈ upperCovered ⟨([], []), ([256], [2]), [], ([], []), ([], []), ([], [0, 0, 0]),
        ([], [0, 0, 0]), [], [], []⟩ ↔ (mapGet? [(257, [256])] k).isSome)) :=
  ⟨⟨by decide, by decide, rfl⟩,
    C3_pipeline_partition (by decide) (by decide) (by decide) (by decide) rfl⟩

/-- C4 (amended): for every well-formed input (keys ascending, output
arities 1-3) on which the pipeline completes, both maps are empty at the end
and no warning is emitted; a non-empty final map is surfaced only as a
warning string in the result, not as a failure (see the counterexample). -/
theorem C4_empty_after_pipeline {lower upper : CaseMap} {t : Tables}
    (hwfL : MapWF lower) (hwfU : MapWF upper)
    (hvL : ∀ p ∈ lower, p.2.length = 1 ∨ p.2.length = 2 ∨ p.2.length = 3)
    (hvU : ∀ p ∈ upper, p.2.length = 1 ∨ p.2.length = 2 ∨ p.2.length = 3)
    (h : ConversionTables lower upper = .ok t) :
    t.final_lower = [] ∧ t.final_upper = [] ∧ t.warnings = [] := by
  obtain ⟨-, -, hfinL, hfinU, hw⟩ := ConversionTables_spec hwfL hwfU hvL hvU h
  exact ⟨hfinL, hfinU, hw⟩

/-- Witness for C4 at a concrete input. -/
theorem C4_empty_after_pipeline_witness :
    (MapWF [((256 : Int), [(257 : Int)])] ∧ MapWF [((257 : Int), [(256 : Int)])] ∧
      ConversionTables [(256, [257])] [(257, [256])] = .ok
        ⟨([], []), ([256], [2]), [], ([], []), ([], []), ([], [0, 0, 0]), ([], [0, 0, 0]),
          [], [], []⟩) ∧
    (Tables.final_lower ⟨([], []), ([256], [2]), [], ([], []), ([], []), ([], [0, 0, 0]),
        ([], [0, 0, 0]), [], [], []⟩ = [] ∧
      Tables.final_upper ⟨([], []), ([256], [2]), [], ([], []), ([], []), ([], [0, 0, 0]),
        ([], [0, 0, 0]), [], [], []⟩ = [] ∧
      Tables.warnings ⟨([], []), ([256], [2]), [], ([], []), ([], []), ([], [0, 0, 0]),
        ([], [0, 0, 0]), [], [], []⟩ = []) :=
  ⟨⟨by decide, by decide, rfl⟩,
    @C4_empty_after_pipeline [(256, [257])] [(257, [256])]
      ⟨([], []), ([256], [2]), [], ([], []), ([], []), ([], [0, 0, 0]), ([], [0, 0, 0]),
        [], [], []⟩ (by decide) (by decide) (by decide) (by decide) rfl⟩

/-- C4 (counterexample): on an input whose only entry has a four-codepoint
output, the pipeline completes normally (`Except.ok`) with a non-empty final
upper-case map, surfacing the completeness violation only as a warning
string in the result — not as a failure value.  This refutes the claim that
a non-empty map at the end is surfaced as an explicit failure condition
rather than only a diagnostic. -/
theorem C4_warning_only_counterexample :
    (ConversionTables [] [(200, [1, 2, 3, 4])]).toOption.map
      (fun t => (t.final_upper, t.warnings)) =
    some ([(200, [1, 2, 3, 4])], ["Not all elements extracted from the uppercase table!"]) :=
  rfl

/-- C10: for every input map (keys ascending), `extract_conversions` emits
the arity-1 entries first, then arity-2, then arity-3, each block listing
`codepoint :: outputs` in ascending codepoint order; the counters are the
per-arity entry counts, the flat length is `2*n1 + 3*n2 + 4*n3`, and exactly
the entries of output length 1, 2 or 3 are removed from the map, all others
left unchanged. -/
theorem C10_conversions_structure {m mfin : CaseMap} {out : List Int × List Nat}
    (hwf : MapWF m) (h : extract_conversions m = .ok (out, mfin)) :
    out.1 = convEnc m 1 ++ convEnc m 2 ++ convEnc m 3 ∧
    out.2 = [(convKeys m 1).length, (convKeys m 2).length, (convKeys m 3).length] ∧
    out.1.length = 2 * (convKeys m 1).length + 3 * (convKeys m 2).length +
      4 * (convKeys m 3).length ∧
    (∀ q, mapGet? mfin q = if ((mapGet? m q).getD []).length = 1 ∨
        ((mapGet? m q).getD []).length = 2 ∨ ((mapGet? m q).getD []).length = 3
      then none else mapGet? m q) := by
  obtain ⟨h1, h2, -, -, h5⟩ := extract_conversions_spec hwf h
  refine ⟨h1, h2, ?_, h5⟩
  rw [h1, List.length_append, List.length_append, convKeys_block_length 1,
    convKeys_block_length 2, convKeys_block_length 3]
  ring

/-- Witness for C10 at a concrete input with one entry of each arity and a
leftover arity-4 entry. -/
theorem C10_conversions_structure_witness :
    (MapWF [((10 : Int), [(20 : Int)]), (11, [30, 40]), (12, [50, 60, 70]), (13, [1, 2, 3, 4])] ∧
      extract_conversions [(10, [20]), (11, [30, 40]), (12, [50, 60, 70]), (13, [1, 2, 3, 4])] =
        .ok (([10, 20, 11, 30, 40, 12, 50, 60, 70], [1, 1, 1]), [(13, [1, 2, 3, 4])])) ∧
    (([(10 : Int), 20, 11, 30, 40, 12, 50, 60, 70], ([1, 1, 1] : List Nat)).1 =
        convEnc [(10, [20]), (11, [30, 40]), (12, [50, 60, 70]), (13, [1, 2, 3, 4])] 1 ++
        convEnc [(10, [20]), (11, [30, 40]), (12, [50, 60, 70]), (13, [1, 2, 3, 4])] 2 ++
        convEnc [(10, [20]), (11, [30, 40]), (12, [50, 60, 70]), (13, [1, 2, 3, 4])] 3 ∧
      ([(10 : Int), 20, 11, 30, 40, 12, 50, 60, 70], ([1, 1, 1] : List Nat)).2 =
        [(convKeys [(10, [20]), (11, [30, 40]), (12, [50, 60, 70]), (13, [1, 2, 3, 4])] 1).length,
         (convKeys [(10, [20]), (11, [30, 40]), (12, [50, 60, 70]), (13, [1, 2, 3, 4])] 2).length,
         (convKeys [(10, [20]), (11, [30, 40]), (12, [50, 60, 70]), (13, [1, 2, 3, 4])] 3).length] ∧
      ([(10 : Int), 20, 11, 30, 40, 12, 50, 60, 70], ([1, 1, 1] : List Nat)).1.length =
        2 * (convKeys [(10, [20]), (11, [30, 40]), (12, [50, 60, 70]), (13, [1, 2, 3, 4])] 1).length +
        3 * (convKeys [(10, [20]), (11, [30, 40]), (12, [50, 60, 70]), (13, [1, 2, 3, 4])] 2).length +
        4 * (convKeys [(10, [20]), (11, [30, 40]), (12, [50, 60, 70]), (13, [1, 2, 3, 4])] 3).length ∧
      (∀ q, mapGet? [((13 : Int), [(1 : Int), 2, 3, 4])] q =
        if ((mapGet? [(10, [20]), (11, [30, 40]), (12, [50, 60, 70]), (13, [1, 2, 3, 4])] q).getD
            []).length = 1 ∨
          ((mapGet? [(10, [20]), (11, [30, 40]), (12, [50, 60, 70]), (13, [1, 2, 3, 4])] q).getD
            []).length = 2 ∨
          ((mapGet? [(10, [20]), (11, [30, 40]), (12, [50, 60, 70]), (13, [1, 2, 3, 4])] q).getD
            []).length = 3
        then none
        else mapGet? [(10, [20]), (11, [30, 40]), (12, [50, 60, 70]), (13, [1, 2, 3, 4])] q)) :=
  ⟨⟨by decide, rfl⟩, C10_conversions_structure (by decide) rfl⟩

lemma pyGet_ok {m : CaseMap} {k : Int} {v : List Int} :
    pyGet m k = .ok v ↔ mapGet? m k = some v := by
  unfold pyGet
  cases h : mapGet? m k with
  | none => simp
  | some w =>
    constructor
    · intro hw
      rw [Except.ok.inj hw]
    · intro hw
      rw [Option.some.inj hw]

lemma pyOrd_ok {v : List Int} {c : Int} : pyOrd v = .ok c ↔ v = [c] := by
  match v with
  | [] => simp [pyOrd]
  | [a] =>
    rw [pyOrd]
    constructor
    · intro h
      rw [Except.ok.inj h]
    · intro h
      rw [(List.cons.inj h).1]
  | a :: b :: tl => simp [pyOrd]

lemma pyIdx_ok {v : List Int} {i : Nat} {c : Int} :
    pyIdx v i = .ok c ↔ v.get? i = some c := by
  unfold pyIdx
  cases h : v.get? i with
  | none => simp
  | some w =>
    constructor
    · intro hw
      rw [Except.ok.inj hw]
    · intro hw
      rw [Option.some.inj hw]

/-- C7: for every case map whose values have 1-3 codepoints and every
codepoint, `calculate_conversion_distance` returns the signed
output-minus-input distance exactly when the codepoint is present with a
single-codepoint output, and `None` in every other case (absent codepoint,
or output of length other than 1). -/
theorem C7_conversion_distance {m : CaseMap} (c : Int)
    (hv : ∀ p ∈ m, p.2.length = 1 ∨ p.2.length = 2 ∨ p.2.length = 3) :
    calculate_conversion_distance m c = .ok (match mapGet? m c with
      | some [x] => some (x - c)
      | _ => none) := by
  unfold calculate_conversion_distance
  cases hmc : mapGet? m c with
  | none => simp [mapHas, hmc]
  | some v =>
    have hvl := hv (c, v) (mapGet?_mem hmc)
    simp only [mapHas, hmc, Option.isSome_some, not_true_eq_false, if_false, ite_false,
      Bool.not_true, pyGet, Bind.bind, Except.bind]
    match v, hvl with
    | [x], _ =>
      have : ¬ ([x].length > 1) := by simp
      rw [if_neg this]
      rfl
    | [x, y], _ =>
      have : ([x, y].length > 1) := by simp
      rw [if_pos this]
    | [x, y, z], _ =>
      have : ([x, y, z].length > 1) := by simp
      rw [if_pos this]

/-- Witness for C7: a present codepoint with a single-codepoint output gives
its signed distance. -/
theorem C7_conversion_distance_witness :
    (∀ p ∈ [((128 : Int), [(129 : Int)])], p.2.length = 1 ∨ p.2.length = 2 ∨ p.2.length = 3) ∧
    calculate_conversion_distance [(128, [129])] 128 = .ok (some 1) :=
  ⟨by decide, by
    rw [@C7_conversion_distance [(128, [129])] 128 (by decide)]
    rfl⟩

lemma incLast_ge {ls : List Nat} {d : Nat} (h : ∀ l ∈ ls, 1 ≤ l) :
    ∀ l ∈ incLast ls d, 1 ≤ l := by
  induction ls with
  | nil => intro l hl; cases hl
  | cons x xs ih =>
    match xs with
    | [] =>
      intro l hl
      rw [show incLast [x] d = [x + d] from rfl] at hl
      rw [List.mem_singleton] at hl
      have := h x (.head _)
      omega
    | y :: ys =>
      intro l hl
      rw [show incLast (x :: y :: ys) d = x :: incLast (y :: ys) d from rfl] at hl
      cases hl with
      | head => exact h x (.head _)
      | tail _ hl => exact ih (fun q hq => h q (.tail _ hq)) l hl

lemma chunk3_append {t : List Int} (a b c : Int) : t.length % 3 = 0 →
    chunk3 (t ++ [a, b, c]) = chunk3 t ++ [(a, b, c)] := by
  induction t using chunk3.induct with
  | case1 x y z rest ih =>
    intro h
    rw [List.length_cons, List.length_cons, List.length_cons] at h
    have h' : rest.length % 3 = 0 := by omega
    show chunk3 (x :: y :: z :: (rest ++ [a, b, c])) = _
    rw [chunk3, ih h']
    rfl
  | case2 t hne =>
    intro h
    match t, hne with
    | [], _ => rfl
    | [x], hne => simp at h
    | [x, y], hne => simp at h
    | x :: y :: z :: r, hne => exact absurd rfl (hne x y z r)

lemma list_eq_pair {v : List Int} {a b : Int} (h2 : v.length = 2)
    (h0 : v.get? 0 = some a) (h1 : v.get? 1 = some b) : v = [a, b] := by
  match v, h2 with
  | [x, y], _ =>
    rw [show ([x, y].get? 0) = some x from rfl] at h0
    rw [show ([x, y].get? 1) = some y from rfl] at h1
    rw [Option.some.inj h0, Option.some.inj h1]

/-- Scan invariant of `extract_special_ranges`: every emitted length is at
least 1 and every emitted `(start, first_out, second_out)` triple records a
true fact about the (unmutated) map, and the flat triple list stays a
multiple of three. -/
def SpecialInv (m : CaseMap) (st : SScan) : Prop :=
  (∀ l ∈ st.lens, 1 ≤ l) ∧ st.triples.length % 3 = 0 ∧
    ∀ tr ∈ chunk3 st.triples, mapGet? m tr.1 = some [tr.2.1, tr.2.2]

lemma specialStep_inv {m : CaseMap} {st st₁ : SScan} {c : Int}
    (hinv : SpecialInv m st) (h : specialStep m st c = .ok st₁) : SpecialInv m st₁ := by
  obtain ⟨hlens, hmod, htr⟩ := hinv
  simp only [specialStep] at h
  obtain ⟨mv, hmv, h⟩ := exceptBind_ok h
  rw [pyGet_ok] at hmv
  by_cases hl2 : mv.length ≠ 2
  · rw [if_pos hl2] at h
    rw [← Except.ok.inj h]
    exact ⟨hlens, hmod, htr⟩
  · rw [if_neg hl2] at h
    by_cases hhas : ¬ mapHas m (c - 1)
    · rw [if_pos hhas] at h
      rw [← Except.ok.inj h]
      exact ⟨hlens, hmod, htr⟩
    · rw [if_neg hhas] at h
      obtain ⟨pmv, hpmv, h⟩ := exceptBind_ok h
      rw [pyGet_ok] at hpmv
      by_cases hpl2 : pmv.length ≠ 2
      · rw [if_pos hpl2] at h
        rw [← Except.ok.inj h]
        exact ⟨hlens, hmod, htr⟩
      · rw [if_neg hpl2] at h
        obtain ⟨p1, hp1, h⟩ := exceptBind_ok h
        obtain ⟨m1, hm1, h⟩ := exceptBind_ok h
        rw [pyIdx_ok] at hp1 hm1
        by_cases hsec : p1 ≠ m1
        · rw [if_pos hsec] at h
          rw [← Except.ok.inj h]
          exact ⟨hlens, hmod, htr⟩
        · rw [if_neg hsec] at h
          obtain ⟨p0, hp0, h⟩ := exceptBind_ok h
          obtain ⟨m0, hm0, h⟩ := exceptBind_ok h
          rw [pyIdx_ok] at hp0 hm0
          by_cases hoff : p0 - (c - 1) ≠ m0 - c
          · rw [if_pos hoff] at h
            rw [← Except.ok.inj h]
            exact ⟨hlens, hmod, htr⟩
          · rw [if_neg hoff] at h
            cases hflag : st.inRange with
            | none =>
              rw [hflag] at h
              cases h
            | some b =>
              rw [hflag] at h
              cases b with
              | true =>
                rw [← Except.ok.inj h]
                exact ⟨incLast_ge hlens, hmod, htr⟩
              | false =>
                rw [← Except.ok.inj h]
                have hpmveq : pmv = [p0, p1] :=
                  list_eq_pair (by omega) hp0 hp1
                refine ⟨?_, ?_, ?_⟩
                · intro l hl
                  rcases List.mem_append.mp hl with hl | hl
                  · exact hlens l hl
                  · rw [List.mem_singleton] at hl
                    omega
                · rw [List.length_append]
                  simp only [List.length_cons, List.length_nil]
                  omega
                · intro tr htrm
                  rw [chunk3_append _ _ _ hmod] at htrm
                  rcases List.mem_append.mp htrm with htrm | htrm
                  · exact htr tr htrm
                  · rw [List.mem_singleton] at htrm
                    rw [htrm]
                    rw [hpmv, hpmveq]

lemma specialFold_inv {m : CaseMap} : ∀ (ks : List Int) (st st' : SScan),
    SpecialInv m st → ks.foldlM (specialStep m) st = .ok st' → SpecialInv m st' := by
  intro ks
  induction ks with
  | nil =>
    intro st st' hinv h
    rw [List.foldlM_nil] at h
    rw [← Except.ok.inj h]
    exact hinv
  | cons c ks ih =>
    intro st st' hinv h
    rw [List.foldlM_cons] at h
    obtain ⟨st₁, h1, h2⟩ := exceptBind_ok h
    exact ih st₁ st' (specialStep_inv hinv h1) h2

/-- C2 (counterexample): on this map the scan skips the non-matching keys 12
and 13 without closing the open run (those branches `continue` without
resetting `in_range`), so the matches at 14 and 15 extend the run that
started at 10, and the emitted range `(start 10, first_out 100, second_out
77, length 3)` covers codepoint 12 — whose pre-extraction output is `[5]`,
not the claimed `(102, 77)`.  This refutes the claim that every `i` in
`[0, length)` satisfies `start+i ↦ (first_out_start+i, second_out)`. -/
theorem C2_special_ranges_counterexample :
    extract_special_ranges
        [(10, [100, 77]), (11, [101, 77]), (12, [5]), (13, [200, 88]), (14, [201, 88]),
          (15, [202, 88])] =
      .ok (([10, 100, 77], [3]),
        [(13, [200, 88]), (14, [201, 88]), (15, [202, 88])]) ∧
    ¬ mapGet? [(10, [100, 77]), (11, [101, 77]), (12, [5]), (13, [200, 88]), (14, [201, 88]),
          (15, [202, 88])] (10 + 2) = some [100 + 2, 77] :=
  ⟨rfl, by decide⟩

/-- C2 (amended): every special range emitted by `extract_special_ranges`
has length at least 1, and its start codepoint satisfies the claimed
property at offset 0: the pre-extraction map sends `start` to the
two-codepoint sequence `(first_out_start, second_out)`.  The property can
fail at offsets `i ≥ 1`, because a run is extended by any later adjacent
match while non-matching keys in between are skipped without closing the
run (see the counterexample). -/
theorem C2_special_ranges_sound {m m' : CaseMap} {out : List Int × List Nat}
    (h : extract_special_ranges m = .ok (out, m')) :
    (∀ l ∈ out.2, 1 ≤ l) ∧
    ∀ tr ∈ chunk3 out.1, mapGet? m tr.1 = some [tr.2.1, tr.2.2] := by
  unfold extract_special_ranges at h
  obtain ⟨st, hst, h⟩ := exceptBind_ok h
  obtain ⟨m₁, hdel, h⟩ := exceptBind_ok h
  have h4 := Except.ok.inj h
  have hout : (st.triples, st.lens) = out := congrArg Prod.fst h4
  have hinv : SpecialInv m st :=
    specialFold_inv (sorted_keys m) ⟨none, [], []⟩ st
      ⟨(by intro l hl; cases hl), (by rfl), (by intro tr htr; cases htr)⟩ hst
  rw [← hout]
  exact ⟨hinv.1, hinv.2.2⟩

/-- Witness for C2 (amended): a two-element run emits range
`(10, 100, 77, length 1)` whose start satisfies the offset-0 property. -/
theorem C2_special_ranges_sound_witness :
    (extract_special_ranges [(10, [100, 77]), (11, [101, 77])] =
      .ok (([10, 100, 77], [1]), [(11, [101, 77])])) ∧
    ((∀ l ∈ ([1] : List Nat), 1 ≤ l) ∧
      ∀ tr ∈ chunk3 [10, 100, 77],
        mapGet? [(10, [100, 77]), (11, [101, 77])] tr.1 = some [tr.2.1, tr.2.2]) :=
  And.intro rfl (@C2_special_ranges_sound [(10, [100, 77]), (11, [101, 77])] [(11, [101, 77])]
    ([10, 100, 77], [1]) rfl)

/-- C1 (counterexample): Scenario B — the input holds only the isolated
bidirectional swap pair `(0x0100, 0x0101)` with no qualifying member at
`0x00FE` or `0x0102`, yet the pipeline emits it as a pair range (start
`0x0100`, length 2) and `character_pairs` stays empty.  This refutes the
claim that a single isolated swap pair is never emitted as a pair range and
surfaces in `character_pairs` instead. -/
theorem C1_isolated_pair_counterexample :
    (ConversionTables [(0x100, [0x101])] [(0x101, [0x100])]).toOption.map
      (fun t => (t.character_pair_ranges, t.character_pairs)) =
    some (([0x100], [2]), []) :=
  rfl

/-- C1 (amended): there is no two-pair minimum in
`extract_character_pair_ranges`.  For every codepoint `c`, on the input
consisting solely of the isolated bidirectional pair `c ↦ c+1` (reverse
`c+1 ↦ c`), the extractor emits the single pair range `(start c, length 2)`
and deletes both members, leaving both maps empty — so the later
`character_pairs` tier, run on the empty leftovers, receives nothing. -/
theorem C1_isolated_pair_amended (c : Int) :
    extract_character_pair_ranges [(c, [c + 1])] [(c + 1, [c])] =
      .ok (([c], [2]), [], []) ∧
    extract_character_pairs [] [] = .ok ([], [], []) := by
  refine ⟨?_, rfl⟩
  have h1 : is_bidirectional_conversion c [(c, [c + 1])] [(c + 1, [c])] = .ok true :=
    is_bidi_iff.mpr ⟨c + 1, by rw [mapGet?, if_pos rfl], by rw [mapGet?, if_pos rfl]⟩
  have hmh : mapHas [(c, [c + 1])] (c - 2) = false := by
    rw [mapHas, mapGet?, if_neg (by omega : ¬ c = c - 2)]
    rfl
  have h2 : is_bidirectional_conversion (c - 2) [(c, [c + 1])] [(c + 1, [c])] = .ok false := by
    rw [is_bidirectional_conversion, if_pos (by rw [hmh]; exact Bool.false_ne_true)]
  have hpy : pyGet [(c, [c + 1])] c = .ok [c + 1] := by
    rw [pyGet, mapGet?, if_pos rfl]
  have hstep : pairRangesStep [(c, [c + 1])] [(c + 1, [c])] ⟨false, [], []⟩ c =
      .ok ⟨true, [c], [2]⟩ := by
    rw [pairRangesStep, h1]
    simp only [Bind.bind, Except.bind]
    rw [if_neg (by decide : ¬ ((!true) = true)), hpy]
    simp only [Except.bind]
    rw [show pyOrd [c + 1] = Except.ok (c + 1) from rfl]
    simp only [Except.bind]
    rw [if_pos trivial, h2]
    rfl
  have hfold : (sorted_keys [(c, [c + 1])]).foldlM
      (pairRangesStep [(c, [c + 1])] [(c + 1, [c])]) (⟨false, [], []⟩ : PScan) =
      .ok ⟨true, [c], [2]⟩ := by
    show List.foldlM (pairRangesStep [(c, [c + 1])] [(c + 1, [c])]) ⟨false, [], []⟩ [c] =
      Except.ok ⟨true, [c], [2]⟩
    rw [List.foldlM_cons, hstep]
    simp only [Bind.bind, Except.bind, List.foldlM_nil, pure, Except.pure]
  have hm1 : mapHas [(c, [c + 1])] c = true := by
    rw [mapHas, mapGet?, if_pos rfl]
    rfl
  have hm2 : mapHas [(c + 1, [c])] (c + 1) = true := by
    rw [mapHas, mapGet?, if_pos rfl]
    rfl
  have he1 : eraseKey! [(c, [c + 1])] c = .ok [] := by
    rw [eraseKey!, if_pos hm1, eraseAllKey, if_pos rfl, eraseAllKey]
  have he2 : eraseKey! [(c + 1, [c])] (c + 1) = .ok [] := by
    rw [eraseKey!, if_pos hm2, eraseAllKey, if_pos rfl, eraseAllKey]
  have hrun : delPairRun [(c, [c + 1])] [(c + 1, [c])] c 1 = .ok ([], []) := by
    rw [delPairRun, he1]
    simp only [Bind.bind, Except.bind]
    rw [he2]
    simp only [Except.bind]
    rw [delPairRun]
  have hdel : delPairs [(c, [c + 1])] [(c + 1, [c])] [c] [2] = .ok ([], []) := by
    rw [delPairs, show ((2 : Nat) + 1) / 2 = 1 from rfl, hrun]
    rfl
  rw [extract_character_pair_ranges, hfold]
  simp only [Bind.bind, Except.bind]
  rw [hdel]

/-- Witness for the amended C1 at the Scenario-B codepoint `0x0100`. -/
theorem C1_isolated_pair_amended_witness :
    extract_character_pair_ranges [((0x100 : Int), [(0x100 : Int) + 1])]
        [((0x100 : Int) + 1, [(0x100 : Int)])] =
      .ok (([0x100], [2]), [], []) ∧
    extract_character_pairs [] [] = .ok ([], [], []) :=
  C1_isolated_pair_amended 0x100

/-- C6 (counterexample): called on maps holding three consecutive
bidirectional chain members `0x100 ↦ 0x101 ↦ 0x102 ↦ 0x103` plus the
non-bidirectional entry `0x103 ↦ [0xFF]`, `extract_character_pair_ranges`
completes and claims the pair range `(start 0x101, length 4)`, whose covered
forward codepoint `0x103` does not satisfy round-trip equality: the forward
map sends it to `0xFF`, not to its pair partner `0x104`.  This refutes the
claim that every codepoint entry claimed by a bidirectional-aware extractor
satisfies round-trip equality at claim time. -/
theorem C6_pair_ranges_counterexample :
    extract_character_pair_ranges
        [(0x100, [0x101]), (0x101, [0x102]), (0x102, [0x103]), (0x103, [0xFF])]
        [(0x101, [0x100]), (0x102, [0x101]), (0x103, [0x102]), (0x104, [0x3])] =
      .ok (([0x100, 0x101], [2, 4]), [(0x102, [0x103])], [(0x103, [0x102])]) ∧
    (0x103 : Int) ∈ covPairL [0x100, 0x101] [2, 4] ∧
    mapGet? [(0x100, [0x101]), (0x101, [0x102]), (0x102, [0x103]), (0x103, [0xFF])]
      (0x103) = some [0xFF] ∧
    ¬ (mapGet? [(0x100, [0x101]), (0x101, [0x102]), (0x102, [0x103]), (0x103, [0xFF])]
        (0x103) = some [0x104] ∧
      mapGet? [(0x101, [0x100]), (0x102, [0x101]), (0x103, [0x102]), (0x104, [0x3])]
        (0x104) = some [0x103]) :=
  ⟨rfl, by decide, rfl, by decide⟩

/-- Per-range soundness of `extract_ranges` output entry `((start,
mapped_start), length)` with respect to the pre-extraction map(s). -/
def RangeOK (m : CaseMap) (rev : Option CaseMap) (e : (Int × Int) × Nat) : Prop :=
  2 ≤ e.2 ∧ ∀ i : Nat, i < e.2 →
    mapGet? m (e.1.1 + (i : Int)) = some [e.1.2 + (i : Int)] ∧
    ∀ r, rev = some r → mapGet? r (e.1.2 + (i : Int)) = some [e.1.1 + (i : Int)]

/-- The flat scan state `(ranges, lens)` organized as a list of
`((start, mapped_start), length)` entries. -/
def StRep (st : RScan) (entries : List ((Int × Int) × Nat)) : Prop :=
  st.ranges = entries.flatMap (fun e => [e.1.1, e.1.2]) ∧ st.lens = entries.map Prod.snd

/-- Invariant of the `extract_ranges` scan: all recorded entries are sound,
and while a range is open its last covered codepoint is the key processed
most recently (`last`). -/
def ScanInv (m : CaseMap) (rev : Option CaseMap) (last : Option Int) (st : RScan) : Prop :=
  ∃ entries, StRep st entries ∧ (∀ e ∈ entries, RangeOK m rev e) ∧
    (st.inRange = true → ∃ init e, entries = init ++ [e] ∧
      last = some (e.1.1 + ((e.2 : Int) - 1)))

lemma incLast_concat (d : Nat) : ∀ (xs : List Nat) (x : Nat),
    incLast (xs ++ [x]) d = xs ++ [x + d] := by
  intro xs
  induction xs with
  | nil => intro x; rfl
  | cons y ys ih =>
    intro x
    match ys with
    | [] => rfl
    | z :: zs =>
      show y :: incLast ((z :: zs) ++ [x]) d = _
      rw [ih x]
      rfl

lemma pairwise_le_getLast : ∀ {l : List Int}, List.Pairwise (· < ·) l →
    ∀ {p : Int}, l.getLast? = some p → ∀ x ∈ l, x ≤ p := by
  intro l
  induction l with
  | nil => intro _ p hp; cases hp
  | cons a t ih =>
    intro hpw p hp x hx
    match t with
    | [] =>
      rw [List.getLast?_singleton] at hp
      rw [List.mem_singleton] at hx
      rw [hx, Option.some.inj hp]
    | b :: t' =>
      have hp' : (b :: t').getLast? = some p := by
        rwa [List.getLast?_cons_cons] at hp
      have hpw' : List.Pairwise (· < ·) (b :: t') := (List.pairwise_cons.mp hpw).2
      cases hx with
      | head =>
        have hpmem : p ∈ b :: t' := List.mem_of_mem_getLast? hp'
        exact le_of_lt ((List.pairwise_cons.mp hpw).1 p hpmem)
      | tail _ hx => exact ih hpw' hp' x hx

lemma dist_ok_single {m : CaseMap} {c : Int} {v : List Int} {d : Option Int}
    (hv : mapGet? m c = some v) (hle : ¬ v.length > 1)
    (h : calculate_conversion_distance m c = .ok d) :
    ∃ x, v = [x] ∧ d = some (x - c) := by
  unfold calculate_conversion_distance at h
  simp only [mapHas, hv, Option.isSome_some, not_true_eq_false, if_false, ite_false,
    Bool.not_true, pyGet, Bind.bind, Except.bind] at h
  rw [if_neg hle] at h
  match v, hle with
  | [], _ => simp [pyOrd] at h
  | [x], _ =>
    refine ⟨x, rfl, ?_⟩
    simp only [pyOrd] at h
    exact (Except.ok.inj h).symm

lemma rangesStep_core {m : CaseMap} {rev : Option CaseMap} {st st₁ : RScan} {c : Int}
    {pre : List Int} {vc pv : List Int}
    (hpw : List.Pairwise (· < ·) pre)
    (hlt : ∀ x ∈ pre, x < c)
    (hcompl : ∀ x, (mapGet? m x).isSome → x < c → x ∈ pre)
    (hinv : ScanInv m rev pre.getLast? st)
    (hvc : mapGet? m c = some vc) (hvclen : ¬ vc.length > 1)
    (hpvs : mapGet? m (c - 1) = some pv) (hpvlen : ¬ pv.length > 1)
    (hpayc : ∀ r, rev = some r → ∀ x, vc = [x] → mapGet? r x = some [c])
    (hpayp : ∀ r, rev = some r → ∀ y, pv = [y] → mapGet? r y = some [c - 1])
    (h : rangesTail m st c = .ok st₁) :
    ScanInv m rev (some c) st₁ := by
  unfold rangesTail at h
  obtain ⟨entries, hrep, hall, hact⟩ := hinv
  obtain ⟨cd, hcd, h⟩ := exceptBind_ok h
  obtain ⟨pd, hpd, h⟩ := exceptBind_ok h
  by_cases hne : cd ≠ pd
  · rw [if_pos hne] at h
    have hst : { st with inRange := false } = st₁ := Except.ok.inj h
    refine ⟨entries, ?_, hall, ?_⟩
    · rw [← hst]
      exact hrep
    · rw [← hst]
      intro hfalse
      cases hfalse
  · rw [if_neg hne] at h
    have heq : cd = pd := not_not.mp hne
    obtain ⟨x, hvx, hcdx⟩ := dist_ok_single hvc hvclen hcd
    obtain ⟨y, hpy, hpdy⟩ := dist_ok_single hpvs hpvlen hpd
    have hxy : x = y + 1 := by
      rw [hcdx, hpdy] at heq
      have := Option.some.inj heq
      omega
    cases hir : st.inRange with
    | true =>
      rw [hir] at h
      rw [if_pos rfl] at h
      have hst : (⟨true, st.ranges, incLast st.lens 1⟩ : RScan) = st₁ := Except.ok.inj h
      obtain ⟨init, e, hentries, hlast⟩ := hact hir
      -- the previously processed key is c - 1
      have hmem : c - 1 ∈ pre := hcompl (c - 1) (by rw [hpvs]; rfl) (by omega)
      have hle : c - 1 ≤ e.1.1 + ((e.2 : Int) - 1) := pairwise_le_getLast hpw hlast _ hmem
      have hlastmem : e.1.1 + ((e.2 : Int) - 1) ∈ pre := List.mem_of_mem_getLast? hlast
      have hlastlt : e.1.1 + ((e.2 : Int) - 1) < c := hlt _ hlastmem
      have hpos : e.1.1 + ((e.2 : Int) - 1) = c - 1 := by omega
      have heOK : RangeOK m rev e := hall e (by rw [hentries]; exact List.mem_append_right _ (.head _))
      obtain ⟨hge2, hcover⟩ := heOK
      have hcast : ((e.2 - 1 : Nat) : Int) = (e.2 : Int) - 1 := by omega
      obtain ⟨hcovlast, hpaylast⟩ := hcover (e.2 - 1) (by omega)
      rw [hcast] at hcovlast
      have hposlast : e.1.1 + ((e.2 : Int) - 1) = c - 1 := hpos
      rw [hposlast] at hcovlast
      -- identify the predecessor value
      have hyval : y = e.1.2 + ((e.2 : Int) - 1) := by
        rw [hpy] at hpvs
        have := Option.some.inj (hcovlast.symm.trans hpvs)
        exact (List.cons.inj this).1.symm
      refine ⟨init ++ [(e.1, e.2 + 1)], ?_, ?_, ?_⟩
      · obtain ⟨hr1, hr2⟩ := hrep
        constructor
        · rw [← hst]
          show st.ranges = _
          rw [hr1, hentries]
          rw [List.flatMap_append, List.flatMap_append]
          rfl
        · rw [← hst]
          show incLast st.lens 1 = _
          rw [hr2, hentries, List.map_append]
          show incLast (List.map Prod.snd init ++ [e.2]) 1 = _
          rw [incLast_concat, List.map_append]
          rfl
      · intro e' he'
        rcases List.mem_append.mp he' with he' | he'
        · exact hall e' (by rw [hentries]; exact List.mem_append_left _ he')
        · rw [List.mem_singleton] at he'
          rw [he']
          refine ⟨by omega, ?_⟩
          intro i hi
          by_cases hilt : i < e.2
          · exact hcover i hilt
          · have hieq : i = e.2 := by omega
            have hposc : e.1.1 + (i : Int) = c := by omega
            have hmsc : e.1.2 + (i : Int) = x := by omega
            constructor
            · rw [hposc, hmsc, hvc, hvx]
            · intro r hrev
              rw [hmsc, hposc]
              exact hpayc r hrev x hvx
      · intro _
        refine ⟨init, (e.1, e.2 + 1), rfl, ?_⟩
        congr 1
        push_cast
        omega
    | false =>
      rw [hir] at h
      rw [if_neg (by simp)] at h
      obtain ⟨pv', hpv', h⟩ := exceptBind_ok h
      rw [pyGet_ok] at hpv'
      have hpveq : pv' = pv := Option.some.inj (hpv'.symm.trans hpvs)
      obtain ⟨o, ho, h⟩ := exceptBind_ok h
      rw [pyOrd_ok] at ho
      have hyo : y = o := by
        rw [hpveq, hpy] at ho
        exact (List.cons.inj ho).1
      have hst : (⟨true, st.ranges ++ [c - 1, o], st.lens ++ [2]⟩ : RScan) = st₁ :=
        Except.ok.inj h
      refine ⟨entries ++ [((c - 1, o), 2)], ?_, ?_, ?_⟩
      · obtain ⟨hr1, hr2⟩ := hrep
        constructor
        · rw [← hst]
          show st.ranges ++ [c - 1, o] = _
          rw [hr1, List.flatMap_append]
          rfl
        · rw [← hst]
          show st.lens ++ [2] = _
          rw [hr2, List.map_append]
          rfl
      · intro e' he'
        rcases List.mem_append.mp he' with he' | he'
        · exact hall e' he'
        · rw [List.mem_singleton] at he'
          rw [he']
          refine ⟨by omega, ?_⟩
          intro i hi
          match i, hi with
          | 0, _ =>
            constructor
            · show mapGet? m (c - 1 + 0) = some [o + 0]
              rw [show c - 1 + (0 : Int) = c - 1 by ring, show o + (0 : Int) = o by ring]
              rw [hpvs, hpy, hyo]
            · intro r hrev
              show mapGet? r (o + 0) = some [c - 1 + 0]
              rw [show o + (0 : Int) = o by ring, show c - 1 + (0 : Int) = c - 1 by ring]
              exact hpayp r hrev o (by rw [hpy, hyo])
          | 1, _ =>
            constructor
            · show mapGet? m (c - 1 + (1 : Int)) = some [o + (1 : Int)]
              rw [show c - 1 + (1 : Int) = c by ring]
              rw [hvc, hvx]
              congr 2
              omega
            · intro r hrev
              show mapGet? r (o + (1 : Int)) = some [c - 1 + (1 : Int)]
              rw [show c - 1 + (1 : Int) = c by ring, show o + (1 : Int) = x by omega]
              exact hpayc r hrev x hvx
      · intro _
        refine ⟨entries, ((c - 1, o), 2), rfl, ?_⟩
        congr 1
        push_cast
        ring

lemma scanInv_kill {m : CaseMap} {rev : Option CaseMap} {last last' : Option Int} {st : RScan}
    (hinv : ScanInv m rev last st) :
    ScanInv m rev last' { st with inRange := false } := by
  obtain ⟨entries, hrep, hall, -⟩ := hinv
  exact ⟨entries, hrep, hall, by intro hfalse; cases hfalse⟩

lemma rangesStep_inv {m : CaseMap} {rev : Option CaseMap} {st st₁ : RScan} {c : Int}
    {pre : List Int}
    (hpw : List.Pairwise (· < ·) pre)
    (hlt : ∀ x ∈ pre, x < c)
    (hcompl : ∀ x, (mapGet? m x).isSome → x < c → x ∈ pre)
    (hinv : ScanInv m rev pre.getLast? st)
    (h : rangesStep m rev st c = .ok st₁) :
    ScanInv m rev (some c) st₁ := by
  unfold rangesStep at h
  obtain ⟨skip, hskip, htail⟩ := exceptBind_ok h
  clear h
  cases skip with
  | true =>
    rw [if_pos rfl] at htail
    rw [← Except.ok.inj htail]
    exact scanInv_kill hinv
  | false =>
    rw [if_neg (by simp)] at htail
    cases rev with
    | none =>
      rw [show rangesSkip m none c = (do
          let v ← pyGet m c
          if v.length > 1 then pure true
          else if ¬ mapHas m (c - 1) then pure true
          else do
            let pv ← pyGet m (c - 1)
            pure (pv.length > 1)) from rfl] at hskip
      obtain ⟨vc, hvcok, hskip⟩ := exceptBind_ok hskip
      rw [pyGet_ok] at hvcok
      by_cases hvlen : vc.length > 1
      · rw [if_pos hvlen] at hskip
        exact absurd (Except.ok.inj hskip) (by simp)
      · rw [if_neg hvlen] at hskip
        by_cases hhas : ¬ mapHas m (c - 1)
        · rw [if_pos hhas] at hskip
          exact absurd (Except.ok.inj hskip) (by simp)
        · rw [if_neg hhas] at hskip
          obtain ⟨pv, hpvok, hskip⟩ := exceptBind_ok hskip
          rw [pyGet_ok] at hpvok
          have hpvlen : ¬ pv.length > 1 := by
            have := Except.ok.inj hskip
            simpa using this.symm
          exact rangesStep_core hpw hlt hcompl hinv hvcok hvlen hpvok hpvlen
            (fun r hrev => by cases hrev) (fun r hrev => by cases hrev) htail
    | some r =>
      rw [show rangesSkip m (some r) c = (do
          let b1 ← is_bidirectional_conversion c m r
          if !b1 then pure true
          else do
            let b2 ← is_bidirectional_conversion (c - 1) m r
            pure (!b2)) from rfl] at hskip
      obtain ⟨b1, hb1, hskip⟩ := exceptBind_ok hskip
      cases b1 with
      | false =>
        rw [if_pos (by simp)] at hskip
        exact absurd (Except.ok.inj hskip) (by simp)
      | true =>
        rw [if_neg (by simp)] at hskip
        obtain ⟨b2, hb2, hskip⟩ := exceptBind_ok hskip
        have hb2t : b2 = true := by
          have := Except.ok.inj hskip
          simpa using this.symm
        rw [hb2t] at hb2
        obtain ⟨xc, hxc, hrxc⟩ := is_bidi_iff.mp hb1
        obtain ⟨yp, hyp, hryp⟩ := is_bidi_iff.mp hb2
        refine rangesStep_core hpw hlt hcompl hinv hxc (by simp) hyp (by simp)
          ?_ ?_ htail
        · intro r' hrev x hx
          have : xc = x := (List.cons.inj (Option.some.inj (by rw [← hx] : some [xc] = some [x] ))).1
          rw [← this]
          rw [← Option.some.inj hrev]
          exact hrxc
        · intro r' hrev y hy
          have : yp = y := (List.cons.inj hy).1
          rw [← this]
          rw [← Option.some.inj hrev]
          exact hryp

lemma rangesFold_inv {m : CaseMap} {rev : Option CaseMap} :
    ∀ (ks pre : List Int) (st st' : RScan),
    List.Pairwise (· < ·) (pre ++ ks) →
    (∀ x, (mapGet? m x).isSome → x ∈ pre ++ ks) →
    ScanInv m rev pre.getLast? st →
    ks.foldlM (rangesStep m rev) st = .ok st' →
    ∃ entries, StRep st' entries ∧ ∀ e ∈ entries, RangeOK m rev e := by
  intro ks
  induction ks with
  | nil =>
    intro pre st st' _ _ hinv h
    rw [List.foldlM_nil] at h
    obtain ⟨entries, hrep, hall, -⟩ := hinv
    rw [← Except.ok.inj h]
    exact ⟨entries, hrep, hall⟩
  | cons c ks ih =>
    intro pre st st' hpw hallmem hinv h
    rw [List.foldlM_cons] at h
    obtain ⟨st₂, h1, h2⟩ := exceptBind_ok h
    have hpwpre : List.Pairwise (· < ·) pre :=
      (List.pairwise_append.mp hpw).1
    have hcross := (List.pairwise_append.mp hpw).2.2
    have hlt : ∀ x ∈ pre, x < c := fun x hx => hcross x hx c (.head _)
    have hpwc : List.Pairwise (· < ·) (c :: ks) := (List.pairwise_append.mp hpw).2.1
    have hcompl : ∀ x, (mapGet? m x).isSome → x < c → x ∈ pre := by
      intro x hx hxc
      rcases List.mem_append.mp (hallmem x hx) with hmem | hmem
      · exact hmem
      · cases hmem with
        | head => omega
        | tail _ hmem =>
          have := (List.pairwise_cons.mp hpwc).1 x hmem
          omega
    have hinv₂ : ScanInv m rev (pre ++ [c]).getLast? st₂ := by
      rw [List.getLast?_concat]
      exact rangesStep_inv hpwpre hlt hcompl hinv h1
    have hassoc : (pre ++ [c]) ++ ks = pre ++ c :: ks := by
      rw [List.append_assoc]
      rfl
    refine ih (pre ++ [c]) st₂ st' ?_ ?_ hinv₂ h2
    · rw [hassoc]
      exact hpw
    · intro x hx
      rw [hassoc]
      exact hallmem x hx

lemma chunk2_flatMap : ∀ (entries : List ((Int × Int) × Nat)),
    chunk2 (entries.flatMap (fun e => [e.1.1, e.1.2])) = entries.map Prod.fst := by
  intro entries
  induction entries with
  | nil => rfl
  | cons e es ih =>
    show chunk2 (e.1.1 :: e.1.2 :: es.flatMap (fun e => [e.1.1, e.1.2])) = _
    rw [chunk2, ih]
    rfl

lemma extract_ranges_sound {m : CaseMap} {rev : Option CaseMap} {out : List Int × List Nat}
    {m' : CaseMap} {rev' : Option CaseMap}
    (hwf : MapWF m) (h : extract_ranges m rev = .ok (out, m', rev')) :
    ∀ e ∈ (chunk2 out.1).zip out.2, RangeOK m rev e := by
  unfold extract_ranges at h
  obtain ⟨st, hst, h⟩ := exceptBind_ok h
  obtain ⟨⟨m₁, rev₁⟩, hdel, h⟩ := exceptBind_ok h
  have h4 := Except.ok.inj h
  have hout : (st.ranges, st.lens) = out := congrArg Prod.fst h4
  obtain ⟨entries, hrep, hall⟩ := rangesFold_inv (sorted_keys m) [] ⟨false, [], []⟩ st
    (by rw [List.nil_append]; exact hwf)
    (by
      intro x hx
      rw [List.nil_append]
      exact mem_sorted_keys_iff.mpr hx)
    ⟨[], ⟨rfl, rfl⟩, (by intro e he; cases he), (by intro hfalse; cases hfalse)⟩
    hst
  obtain ⟨hr1, hr2⟩ := hrep
  rw [← hout]
  show ∀ e ∈ (chunk2 st.ranges).zip st.lens, RangeOK m rev e
  rw [hr1, hr2, chunk2_flatMap, List.zip_map']
  intro e he
  rcases List.mem_map.mp he with ⟨e', he', rfl⟩
  have : (e'.1, e'.2) = e' := rfl
  rw [this]
  exact hall e' he'

/-- C5: in both modes, every uniform range `((start, mapped_start), length)`
emitted by `extract_ranges` covers at least 2 codepoints; for every
`i < length` the pre-extraction map sends `start+i` to the single codepoint
`mapped_start+i`; and every covered codepoint has an adjacent covered
neighbor with the same conversion offset — so a lone eligible codepoint with
no qualifying neighbor is never emitted as a uniform range. -/
theorem C5_uniform_ranges_sound {m : CaseMap} {rev : Option CaseMap}
    {out : List Int × List Nat} {m' : CaseMap} {rev' : Option CaseMap}
    (hwf : MapWF m) (h : extract_ranges m rev = .ok (out, m', rev')) :
    ∀ e ∈ (chunk2 out.1).zip out.2,
      2 ≤ e.2 ∧
      (∀ i : Nat, i < e.2 → mapGet? m (e.1.1 + (i : Int)) = some [e.1.2 + (i : Int)]) ∧
      (∀ i : Nat, i < e.2 → ∃ y my : Int,
        (y = e.1.1 + (i : Int) - 1 ∨ y = e.1.1 + (i : Int) + 1) ∧
        mapGet? m y = some [my] ∧ my - y = e.1.2 - e.1.1) := by
  intro e he
  obtain ⟨hge2, hcover⟩ := extract_ranges_sound hwf h e he
  refine ⟨hge2, fun i hi => (hcover i hi).1, ?_⟩
  intro i hi
  by_cases hnext : i + 1 < e.2
  · refine ⟨e.1.1 + ((i + 1 : Nat) : Int), e.1.2 + ((i + 1 : Nat) : Int), ?_, ?_, ?_⟩
    · right
      push_cast
      ring
    · exact (hcover (i + 1) hnext).1
    · push_cast
      ring
  · have hi1 : 1 ≤ i := by omega
    refine ⟨e.1.1 + ((i - 1 : Nat) : Int), e.1.2 + ((i - 1 : Nat) : Int), ?_, ?_, ?_⟩
    · left
      omega
    · exact (hcover (i - 1) (by omega)).1
    · omega

/-- Witness for C5: the map `{0x391 ↦ 0x3B1, 0x392 ↦ 0x3B2, 0x393 ↦ 0x3B3}`
with its inverse yields the single bidirectional range
`(0x391, 0x3B1, length 3)`, each member mapping at offset `+32`. -/
theorem C5_uniform_ranges_sound_witness :
    (MapWF [((0x391 : Int), [(0x3B1 : Int)]), (0x392, [0x3B2]), (0x393, [0x3B3])] ∧
      extract_ranges [(0x391, [0x3B1]), (0x392, [0x3B2]), (0x393, [0x3B3])]
          (some [(0x3B1, [0x391]), (0x3B2, [0x392]), (0x3B3, [0x393])]) =
        .ok (([0x391, 0x3B1], [3]), [], some [])) ∧
    (∀ e ∈ (chunk2 [(0x391 : Int), 0x3B1]).zip ([3] : List Nat),
      2 ≤ e.2 ∧
      (∀ i : Nat, i < e.2 →
        mapGet? [(0x391, [0x3B1]), (0x392, [0x3B2]), (0x393, [0x3B3])] (e.1.1 + (i : Int)) =
          some [e.1.2 + (i : Int)]) ∧
      (∀ i : Nat, i < e.2 → ∃ y my : Int,
        (y = e.1.1 + (i : Int) - 1 ∨ y = e.1.1 + (i : Int) + 1) ∧
        mapGet? [(0x391, [0x3B1]), (0x392, [0x3B2]), (0x393, [0x3B3])] y = some [my] ∧
        my - y = e.1.2 - e.1.1)) :=
  ⟨⟨by decide, rfl⟩,
    @C5_uniform_ranges_sound [(0x391, [0x3B1]), (0x392, [0x3B2]), (0x393, [0x3B3])]
      (some [(0x3B1, [0x391]), (0x3B2, [0x392]), (0x3B3, [0x393])])
      (([0x391, 0x3B1], [3])) [] (some []) (by decide) rfl⟩

/-- C6 (amended): `is_bidirectional_conversion` returns true exactly when
the forward map sends the codepoint to a single codepoint `m` and the
reverse map sends `m` back to it; every entry of a uniform bidirectional
range satisfies round-trip equality in the pre-extraction maps; and every
singleton pair emitted by `extract_character_pairs` satisfies round-trip
equality in the maps passed to it.  (Pair ranges are excluded: see the
counterexample, they can claim non-round-trip entries when the input
contains consecutive swap-chain members.) -/
theorem C6_bidirectional_roundtrip :
    (∀ (c : Int) (lc rc : CaseMap), is_bidirectional_conversion c lc rc = .ok true ↔
      ∃ mv, mapGet? lc c = some [mv] ∧ mapGet? rc mv = some [c]) ∧
    (∀ (m r : CaseMap) (out : List Int × List Nat) (m' : CaseMap) (rev' : Option CaseMap),
      MapWF m → extract_ranges m (some r) = .ok (out, m', rev') →
      ∀ e ∈ (chunk2 out.1).zip out.2, ∀ i : Nat, i < e.2 →
        mapGet? m (e.1.1 + (i : Int)) = some [e.1.2 + (i : Int)] ∧
        mapGet? r (e.1.2 + (i : Int)) = some [e.1.1 + (i : Int)]) ∧
    (∀ (lc rc : CaseMap) (pairs : List Int) (lc' rc' : CaseMap),
      extract_character_pairs lc rc = .ok (pairs, lc', rc') →
      ∀ ab ∈ (evens pairs).zip (odds pairs),
        mapGet? lc ab.1 = some [ab.2] ∧ mapGet? rc ab.2 = some [ab.1]) := by
  refine ⟨fun c lc rc => is_bidi_iff, ?_, ?_⟩
  · intro m r out m' rev' hwf h e he i hi
    obtain ⟨-, hcover⟩ := extract_ranges_sound hwf h e he
    obtain ⟨h1, h2⟩ := hcover i hi
    exact ⟨h1, h2 r rfl⟩
  · intro lc rc pairs lc' rc' h
    exact (extract_character_pairs_char h).2.2

/-- Witness for C6 at concrete inputs: the bidirectional pair
`(0x100, 0x2030)`, the uniform range of the C5 witness, and a singleton
pair run of `extract_character_pairs`. -/
theorem C6_bidirectional_roundtrip_witness :
    (is_bidirectional_conversion 0x100 [(0x100, [0x2030])] [(0x2030, [0x100])] = .ok true ↔
      ∃ mv, mapGet? [((0x100 : Int), [(0x2030 : Int)])] 0x100 = some [mv] ∧
        mapGet? [((0x2030 : Int), [(0x100 : Int)])] mv = some [(0x100 : Int)]) ∧
    (MapWF [((0x391 : Int), [(0x3B1 : Int)]), (0x392, [0x3B2])] ∧
      extract_ranges [(0x391, [0x3B1]), (0x392, [0x3B2])]
          (some [(0x3B1, [0x391]), (0x3B2, [0x392])]) =
        .ok (([0x391, 0x3B1], [2]), [], some []) ∧
      (∀ e ∈ (chunk2 [(0x391 : Int), 0x3B1]).zip ([2] : List Nat), ∀ i : Nat, i < e.2 →
        mapGet? [(0x391, [0x3B1]), (0x392, [0x3B2])] (e.1.1 + (i : Int)) =
          some [e.1.2 + (i : Int)] ∧
        mapGet? [(0x3B1, [0x391]), (0x3B2, [0x392])] (e.1.2 + (i : Int)) =
          some [e.1.1 + (i : Int)])) ∧
    (extract_character_pairs [(0x100, [0x2030])] [(0x2030, [0x100])] =
        .ok ([0x100, 0x2030], [], []) ∧
      ∀ ab ∈ (evens [(0x100 : Int), 0x2030]).zip (odds [(0x100 : Int), 0x2030]),
        mapGet? [(0x100, [0x2030])] ab.1 = some [ab.2] ∧
        mapGet? [(0x2030, [0x100])] ab.2 = some [ab.1]) :=
  ⟨C6_bidirectional_roundtrip.1 0x100 [(0x100, [0x2030])] [(0x2030, [0x100])],
    ⟨by decide, rfl,
      C6_bidirectional_roundtrip.2.1 [(0x391, [0x3B1]), (0x392, [0x3B2])]
        [(0x3B1, [0x391]), (0x3B2, [0x392])] (([0x391, 0x3B1], [2])) [] (some [])
        (by decide) rfl⟩,
    ⟨rfl, C6_bidirectional_roundtrip.2.2 [(0x100, [0x2030])] [(0x2030, [0x100])]
      [0x100, 0x2030] [] [] rfl⟩⟩

lemma mapGet?_append (a b : CaseMap) (k : Int) :
    mapGet? (a ++ b) k = match mapGet? a k with
      | some v => some v
      | none => mapGet? b k := by
  induction a with
  | nil => rfl
  | cons p rest ih =>
    by_cases hp : p.1 = k
    · show mapGet? (p :: (rest ++ b)) k = _
      rw [mapGet?, if_pos hp, mapGet?, if_pos hp]
    · show mapGet? (p :: (rest ++ b)) k = _
      rw [mapGet?, if_neg hp, mapGet?, if_neg hp, ih]

lemma mapGet?_insertSorted (m : CaseMap) (k : Int) (v : List Int) (q : Int) :
    mapGet? (insertSorted m k v) q = if q = k then some v else mapGet? m q := by
  induction m with
  | nil =>
    show mapGet? [(k, v)] q = if q = k then some v else mapGet? [] q
    simp only [mapGet?]
    by_cases hq : q = k
    · rw [if_pos hq, if_pos hq.symm]
    · rw [if_neg hq, if_neg (fun hh : k = q => hq hh.symm)]
  | cons p rest ih =>
    obtain ⟨k', v'⟩ := p
    show mapGet? (if k < k' then (k, v) :: (k', v') :: rest
        else if k = k' then (k, v) :: rest
        else (k', v') :: insertSorted rest k v) q = _
    by_cases h1 : k < k'
    · rw [if_pos h1, mapGet?]
      by_cases hq : q = k
      · rw [if_pos hq.symm, if_pos hq]
      · rw [if_neg (fun hh => hq hh.symm), if_neg hq]
    · rw [if_neg h1]
      by_cases h2 : k = k'
      · rw [if_pos h2, mapGet?]
        by_cases hq : q = k
        · rw [if_pos hq.symm, if_pos hq]
        · rw [if_neg (fun hh => hq hh.symm), if_neg hq, mapGet?,
            if_neg (fun hh => hq (by omega))]
      · rw [if_neg h2, mapGet?]
        by_cases h3 : k' = q
        · have hq : ¬ q = k := by omega
          rw [if_pos h3, if_neg hq, mapGet?, if_pos h3]
        · rw [if_neg h3, ih, mapGet?, if_neg h3]

lemma mem_keys_insertSorted {m : CaseMap} {k : Int} {v : List Int} {x : Int}
    (h : x ∈ sorted_keys (insertSorted m k v)) : x ∈ sorted_keys m ∨ x = k := by
  by_cases hx : x = k
  · exact Or.inr hx
  · left
    have hsome := mapGet?_isSome_of_mem_keys h
    rw [mapGet?_insertSorted, if_neg hx] at hsome
    exact mem_sorted_keys_iff.mpr hsome

lemma mapWF_insertSorted : ∀ (m : CaseMap), MapWF m → ∀ (k : Int) (v : List Int),
    MapWF (insertSorted m k v) := by
  intro m
  induction m with
  | nil =>
    intro _ k v
    exact List.pairwise_singleton _ _
  | cons p rest ih =>
    intro hwf k v
    obtain ⟨k', v'⟩ := p
    have hwfr : MapWF rest := (List.pairwise_cons.mp hwf).2
    have hklt : ∀ x ∈ sorted_keys rest, k' < x := (List.pairwise_cons.mp hwf).1
    show MapWF (if k < k' then (k, v) :: (k', v') :: rest
        else if k = k' then (k, v) :: rest
        else (k', v') :: insertSorted rest k v)
    by_cases h1 : k < k'
    · rw [if_pos h1]
      refine List.pairwise_cons.mpr ⟨?_, hwf⟩
      intro x hx
      cases List.mem_cons.mp hx with
      | inl hx => omega
      | inr hx =>
        have := hklt x hx
        omega
    · rw [if_neg h1]
      by_cases h2 : k = k'
      · rw [if_pos h2]
        refine List.pairwise_cons.mpr ⟨?_, hwfr⟩
        intro x hx
        have := hklt x hx
        omega
      · rw [if_neg h2]
        refine List.pairwise_cons.mpr ⟨?_, ih hwfr k v⟩
        intro x hx
        rcases mem_keys_insertSorted hx with hmem | hmem
        · exact hklt x hmem
        · omega

lemma buildMap_wf (l : List (Int × List Int)) : MapWF (buildMap l) := by
  suffices hgen : ∀ acc, MapWF acc →
      MapWF (l.foldl (fun m p => insertSorted m p.1 p.2) acc) from
    hgen [] List.Pairwise.nil
  induction l with
  | nil => intro acc hacc; exact hacc
  | cons p rest ih =>
    intro acc hacc
    exact ih (insertSorted acc p.1 p.2) (mapWF_insertSorted acc hacc p.1 p.2)

lemma dictGet_cons (p : Int × List Int) (rest : List (Int × List Int)) (k : Int) :
    dictGet (p :: rest) k = match dictGet rest k with
      | some v => some v
      | none => if p.1 = k then some p.2 else none := by
  show mapGet? ((p :: rest).reverse) k = match mapGet? rest.reverse k with
      | some v => some v
      | none => if p.1 = k then some p.2 else none
  rw [List.reverse_cons, mapGet?_append]
  cases hr : mapGet? rest.reverse k with
  | some v => rfl
  | none =>
    show mapGet? [p] k = if p.1 = k then some p.2 else none
    rw [mapGet?, mapGet?]

lemma mapGet?_buildMap (l : List (Int × List Int)) (k : Int) :
    mapGet? (buildMap l) k = dictGet l k := by
  suffices hgen : ∀ acc, mapGet? (l.foldl (fun m p => insertSorted m p.1 p.2) acc) k =
      match dictGet l k with
      | some v => some v
      | none => mapGet? acc k by
    have h0 := hgen []
    show mapGet? (l.foldl (fun m p => insertSorted m p.1 p.2) []) k = dictGet l k
    rw [h0]
    cases hd : dictGet l k with
    | none => rfl
    | some v => rfl
  induction l with
  | nil => intro acc; rfl
  | cons p rest ih =>
    intro acc
    show mapGet? (rest.foldl (fun m p => insertSorted m p.1 p.2) (insertSorted acc p.1 p.2)) k = _
    rw [ih (insertSorted acc p.1 p.2), mapGet?_insertSorted, dictGet_cons]
    cases hr : dictGet rest k with
    | some v => rfl
    | none =>
      by_cases hk : k = p.1
      · rw [if_pos hk, if_pos hk.symm]
      · rw [if_neg hk, if_neg (fun hh : p.1 = k => hk hh.symm)]

lemma mapGet?_none_of_not_mem {m : CaseMap} {q : Int} (h : q ∉ sorted_keys m) :
    mapGet? m q = none := by
  cases hq : mapGet? m q with
  | none => rfl
  | some v => exact absurd (mem_sorted_keys_iff.mpr (by rw [hq]; rfl)) h

lemma mapExt : ∀ {m₁ m₂ : CaseMap}, MapWF m₁ → MapWF m₂ →
    (∀ k, mapGet? m₁ k = mapGet? m₂ k) → m₁ = m₂ := by
  intro m₁
  induction m₁ with
  | nil =>
    intro m₂ _ _ hk
    exact (eq_nil_of_lookup_none (fun q => ((hk q).symm.trans (by rw [mapGet?])))).symm
  | cons p r₁ ih =>
    intro m₂ hwf1 hwf2 hk
    obtain ⟨k₁, v₁⟩ := p
    match m₂ with
    | [] =>
      have h := hk k₁
      rw [show mapGet? ([] : CaseMap) k₁ = none from rfl, mapGet?, if_pos rfl] at h
      cases h
    | (k₂, v₂) :: r₂ =>
      have hlt1 : ∀ x ∈ sorted_keys r₁, k₁ < x := (List.pairwise_cons.mp hwf1).1
      have hlt2 : ∀ x ∈ sorted_keys r₂, k₂ < x := (List.pairwise_cons.mp hwf2).1
      have hk1mem : k₁ ∈ sorted_keys ((k₂, v₂) :: r₂) := by
        refine mem_sorted_keys_iff.mpr ?_
        rw [← hk k₁, mapGet?, if_pos rfl]
        rfl
      have hk2mem : k₂ ∈ sorted_keys ((k₁, v₁) :: r₁) := by
        refine mem_sorted_keys_iff.mpr ?_
        rw [hk k₂, mapGet?, if_pos rfl]
        rfl
      have hkeq : k₁ = k₂ := by
        rcases List.mem_cons.mp hk1mem with h1 | h1
        · exact h1
        · rcases List.mem_cons.mp hk2mem with h2 | h2
          · omega
          · have := hlt2 k₁ h1
            have := hlt1 k₂ h2
            omega
      have hveq : v₁ = v₂ := by
        have := hk k₁
        rw [mapGet?, if_pos rfl, mapGet?, if_pos hkeq.symm] at this
        exact Option.some.inj this
      have hnotin1 : k₁ ∉ sorted_keys r₁ := by
        intro hmem
        have := hlt1 k₁ hmem
        omega
      have hnotin2 : k₁ ∉ sorted_keys r₂ := by
        intro hmem
        have := hlt2 k₁ hmem
        omega
      have htails : ∀ q, mapGet? r₁ q = mapGet? r₂ q := by
        intro q
        by_cases hq : q = k₁
        · rw [hq, mapGet?_none_of_not_mem hnotin1, mapGet?_none_of_not_mem hnotin2]
        · have := hk q
          rw [mapGet?, if_neg (fun hh => hq hh.symm), mapGet?,
            if_neg (fun hh => hq (by omega))] at this
          exact this
      rw [hkeq, hveq, ih (List.pairwise_cons.mp hwf1).2 (List.pairwise_cons.mp hwf2).2 htails]

/-- C9: the pipeline is deterministic in the key-to-value mapping of its input
dicts: two insertion sequences realising the same mapping (regardless of
insertion order, with later bindings for a key winning) yield identical
tables from `ConversionTables`. -/
theorem C9_determinism (l1 l2 u1 u2 : List (Int × List Int))
    (hl : ∀ k, dictGet l1 k = dictGet l2 k)
    (hu : ∀ k, dictGet u1 k = dictGet u2 k) :
    ConversionTables (buildMap l1) (buildMap u1) =
      ConversionTables (buildMap l2) (buildMap u2) := by
  have hleq : buildMap l1 = buildMap l2 :=
    mapExt (buildMap_wf l1) (buildMap_wf l2)
      (fun k => by rw [mapGet?_buildMap, mapGet?_buildMap, hl k])
  have hueq : buildMap u1 = buildMap u2 :=
    mapExt (buildMap_wf u1) (buildMap_wf u2)
      (fun k => by rw [mapGet?_buildMap, mapGet?_buildMap, hu k])
  rw [hleq, hueq]

/-- C9 witness: the two insertion orders of the mapping 1 ↦ [2], 3 ↦ [4]
produce identical pipeline output. -/
theorem C9_determinism_witness :
    ConversionTables (buildMap [(1, [2]), (3, [4])]) (buildMap []) =
      ConversionTables (buildMap [(3, [4]), (1, [2])]) (buildMap []) :=
  C9_determinism [(1, [2]), (3, [4])] [(3, [4]), (1, [2])] [] []
    (fun k => by
      show mapGet? [(3, [4]), (1, [2])] k = mapGet? [(1, [2]), (3, [4])] k
      by_cases h1 : (1 : Int) = k
      · rw [← h1]
        decide
      · by_cases h3 : (3 : Int) = k
        · rw [← h3]
          decide
        · simp only [mapGet?]
          rw [if_neg h3, if_neg h1, if_neg h1, if_neg h3])
    (fun k => rfl)

/-! ### Special-casing line parsing (read_case_mappings, special-casing loop)

Text fields of a semicolon-split line are modelled as lists of characters.
`pyInt16` models `int(s, 16)` on the plain hex-digit strings that occur in
the data files (no sign, no `0x` prefix, no underscores, no surrounding
whitespace); on the empty string it raises `ValueError` exactly as Python
does. A parsed output sequence is the list of its codepoints. -/

/-- One hexadecimal digit, or `none`. -/
def hexDigit? (c : Char) : Option Nat :=
  if '0' ≤ c ∧ c ≤ '9' then some (c.toNat - '0'.toNat)
  else if 'a' ≤ c ∧ c ≤ 'f' then some (c.toNat - 'a'.toNat + 10)
  else if 'A' ≤ c ∧ c ≤ 'F' then some (c.toNat - 'A'.toNat + 10)
  else none

/-- Models `int(s, 16)`: `ValueError` on the empty string or a non-hex digit. -/
def pyInt16 : List Char → Except String Int
  | [] => .error "ValueError"
  | cs => cs.foldlM (fun acc c =>
      match hexDigit? c with
      | some d => .ok (16 * acc + (d : Int))
      | none => .error "ValueError") 0

/-- Models `str.split(' ')`: split at every space, keeping empty chunks. -/
def splitSp : List Char → List (List Char)
  | [] => [[]]
  | c :: rest =>
    match splitSp rest with
    | [] => if c = ' ' then [[], []] else [[c]]
    | cur :: done => if c = ' ' then [] :: cur :: done else (c :: cur) :: done

/-- Models `parse_unicode_sequence`: split the raw field at spaces, skip empty
chunks, parse each chunk as hex and append its codepoint to the result. -/
def parse_unicode_sequence (raw_data : List Char) : Except String (List Int) :=
  (splitSp raw_data).foldlM (fun result unicode_char =>
    if unicode_char = [] then .ok result
    else do
      let hex_val ← pyInt16 unicode_char
      .ok (result ++ [hex_val])) []

/-- Models `line[i]` on a field list: `IndexError` when out of range. -/
def pyIdxF (l : List (List Char)) (i : Nat) : Except String (List Char) :=
  match l.get? i with
  | some x => .ok x
  | none => .error "IndexError"

/-- Models `line[0].startswith('#')` (on the empty string: false). -/
def startsWithHash : List Char → Bool
  | [] => false
  | c :: _ => c = '#'

/-- Models the `'#'`-replacement step of the special-casing loop: a field in
which `i.find('#') >= 0` is replaced by the empty string in its entirety. -/
def blankHash (i : List Char) : List Char := if i.contains '#' then [] else i

/-- The body of one special-casing loop iteration after the comment-line skip:
`letter_id = int(line[0], 16)`, `condition_list = line[4]`, the range and
condition-list skip, then `parse_unicode_sequence` on `line[1]` and `line[3]`
and the two dict assignments. -/
def special_casing_body (line : List (List Char)) (lower upper : CaseMap) :
    Except String (CaseMap × CaseMap) := do
  let f0 ← pyIdxF line 0
  let letter_id ← pyInt16 f0
  let condition_list ← pyIdxF line 4
  if letter_id ≥ 0x10000 ∨ letter_id < 128 ∨ condition_list ≠ [] then
    pure (lower, upper)
  else do
    let f1 ← pyIdxF line 1
    let small_letter ← parse_unicode_sequence f1
    let f3 ← pyIdxF line 3
    let capital_letter ← parse_unicode_sequence f3
    pure (insertSorted lower letter_id small_letter,
          insertSorted upper letter_id capital_letter)

/-- One iteration of the special-casing loop of `read_case_mappings`: skip
empty lines and comment lines, blank every field containing `'#'`, then run
the extraction body on the blanked fields. -/
def special_casing_line (line : List (List Char)) (lower upper : CaseMap) :
    Except String (CaseMap × CaseMap) :=
  match line with
  | [] => .ok (lower, upper)
  | f0 :: _ =>
    if startsWithHash f0 then .ok (lower, upper)
    else special_casing_body (line.map blankHash) lower upper

lemma blankHash_idem (i : List Char) : blankHash (blankHash i) = blankHash i := by
  by_cases hc : i.contains '#' = true
  · have h1 : blankHash i = [] := by rw [blankHash, if_pos hc]
    rw [h1]
    rfl
  · have h1 : blankHash i = i := by rw [blankHash, if_neg hc]
    rw [h1, h1]

lemma startsWithHash_blankHash (f : List Char) (h : startsWithHash f = false) :
    startsWithHash (blankHash f) = false := by
  by_cases hc : f.contains '#' = true
  · rw [blankHash, if_pos hc]
    rfl
  · rw [blankHash, if_neg hc]
    exact h

lemma map_blankHash_idem (l : List (List Char)) :
    (l.map blankHash).map blankHash = l.map blankHash := by
  rw [List.map_map]
  exact List.map_congr_left (fun x _ => blankHash_idem x)

/-- C8 counterexample: in the special-casing loop a field containing `'#'` is
replaced by the empty string in its entirety, not stripped after the `'#'`.
On the line `0100;0046 0066 # x;0100;0100;` the data-bearing lowercase field
`0046 0066` is lost: the lowercase map receives `0x100 ↦ []` instead of
`0x100 ↦ [0x46, 0x66]`, while the uppercase map receives `0x100 ↦ [0x100]`. -/
theorem C8_hash_strips_entire_field :
    special_casing_line
      [['0', '1', '0', '0'],
       ['0', '0', '4', '6', ' ', '0', '0', '6', '6', ' ', '#', ' ', 'x'],
       ['0', '1', '0', '0'],
       ['0', '1', '0', '0'],
       []] [] [] =
      Except.ok ([((256 : Int), ([] : List Int))], [(256, [256])]) := by rfl

/-- C8 (amended): the pre-`'#'` text of a field never contributes to the case
maps. Whenever the line is not skipped as a comment line, running the
special-casing iteration is the same as running it on the line with every
`'#'`-containing field already replaced by the empty string. -/
theorem C8_comment_fields_blanked (line : List (List Char)) (lower upper : CaseMap)
    (h : ∀ f0 ∈ line.head?, startsWithHash f0 = false) :
    special_casing_line line lower upper =
      special_casing_line (line.map blankHash) lower upper := by
  cases line with
  | nil => rfl
  | cons f0 rest =>
    have h0 : startsWithHash f0 = false := h f0 rfl
    show (if startsWithHash f0 = true then Except.ok (lower, upper)
          else special_casing_body ((f0 :: rest).map blankHash) lower upper) =
         (if startsWithHash (blankHash f0) = true then Except.ok (lower, upper)
          else special_casing_body (((f0 :: rest).map blankHash).map blankHash) lower upper)
    rw [if_neg (by rw [h0]; exact Bool.false_ne_true),
      if_neg (by rw [startsWithHash_blankHash f0 h0]; exact Bool.false_ne_true),
      map_blankHash_idem]

/-- C8 witness: applying the amended theorem to the counterexample line. -/
theorem C8_comment_fields_blanked_witness :
    special_casing_line
      [['0', '1', '0', '0'],
       ['0', '0', '4', '6', ' ', '0', '0', '6', '6', ' ', '#', ' ', 'x'],
       ['0', '1', '0', '0'],
       ['0', '1', '0', '0'],
       []] [] [] =
      special_casing_line
        ([['0', '1', '0', '0'],
          ['0', '0', '4', '6', ' ', '0', '0', '6', '6', ' ', '#', ' ', 'x'],
          ['0', '1', '0', '0'],
          ['0', '1', '0', '0'],
          []].map blankHash) [] [] :=
  C8_comment_fields_blanked
    [['0', '1', '0', '0'],
     ['0', '0', '4', '6', ' ', '0', '0', '6', '6', ' ', '#', ' ', 'x'],
     ['0', '1', '0', '0'],
     ['0', '1', '0', '0'],
     []] [] []
    (by
      intro f0 hf
      cases hf
      decide)
